import Mathlib

/-!
Verification of the zarrita chunked-array storage engine.

The development shallowly embeds the engine of `zarrita/array.py` and the
store layer of `zarrita/store.py`.  Element values are modelled as `Int`
(one abstract cell value per stored byte-group), n-dimensional arrays as
functions from index vectors (`List Nat`) to values, and the key-value
store as an association list.  Modules of the repository that are not part
of the provided sources (the indexer `zarrita/indexing.py`, the codec
pipeline `zarrita/codecs.py`, the chunk-key encoding of
`zarrita/metadata.py` and the value handles of `zarrita/value_handle.py`)
are modelled from the specification and carry a note in their doc comment.
-/

namespace Zarrita

/-! Basic grid and selection machinery. -/

/-- A hyper-rectangular selection: per axis a `(start, stop)` pair, step 1. -/
abbrev Sel := List (Nat × Nat)

/-- An n-dimensional array, modelled as a total function from index vectors. -/
abbrev Arr := List Nat → Int

/-- Product of the entries of a list, the number of cells of a shape. -/
def prodList (l : List Nat) : Nat := l.foldr (· * ·) 1

/-- Cartesian product of per-axis index lists, row-major (first axis outermost). -/
def cartProd : List (List Nat) → List (List Nat)
  | [] => [[]]
  | l :: ls => l.flatMap (fun x => (cartProd ls).map (x :: ·))

/-- All indices of a given shape, in row-major order. -/
def allIndices (shape : List Nat) : List (List Nat) := cartProd (shape.map List.range)

/-- Row-major linear index of `idx` in an array of shape `shape`. -/
def linearIndex (shape idx : List Nat) : Nat :=
  (shape.zip idx).foldl (fun acc p => acc * p.1 + p.2) 0

/-- Boolean membership of an index in a selection box. -/
def inSelB (sel : Sel) (idx : List Nat) : Bool :=
  sel.length == idx.length &&
    (idx.zip sel).all (fun p => decide (p.2.1 ≤ p.1) && decide (p.1 < p.2.2))

/-- Boolean membership of an index inside a shape. -/
def inShapeB (shape idx : List Nat) : Bool :=
  shape.length == idx.length && (idx.zip shape).all (fun p => decide (p.1 < p.2))

/-- Per-axis start offsets of a selection. -/
def selStarts (sel : Sel) : List Nat := sel.map Prod.fst

/-- Shape of a selection: per axis `stop - start` (step is always 1). -/
def selShape (sel : Sel) : List Nat := sel.map (fun p => p.2 - p.1)

/-- Add per-axis offsets to an index. -/
def shiftIdx (starts idx : List Nat) : List Nat := List.zipWith (fun i s => i + s) idx starts

/-- Subtract per-axis offsets from an index. -/
def unshiftIdx (starts idx : List Nat) : List Nat := List.zipWith (fun i s => i - s) idx starts

/-- The numpy region assignment `dst[sel] = src`: inside the box the value comes
from `src` at box-relative coordinates, outside from `dst`. -/
def setRegion (dst : Arr) (sel : Sel) (src : Arr) : Arr :=
  fun idx => if inSelB sel idx then src (unshiftIdx (selStarts sel) idx) else dst idx

/-- Modelled from the spec (`zarrita/indexing.py` is not among the sources):
`is_total_slice(sel, chunk_shape)` is true when `sel` covers the entire chunk in
every dimension (start = 0, stop = size). -/
def isTotalSlice (sel : Sel) (chunkShape : List Nat) : Bool :=
  sel.length == chunkShape.length &&
    (sel.zip chunkShape).all (fun p => p.1.1 == 0 && p.1.2 == p.2)

/-- Modelled from the spec (`zarrita/indexing.py` is not among the sources):
the chunk indices along one axis whose blocks of size `cs` intersect `[start, stop)`. -/
def axisChunks (start stop cs : Nat) : List Nat :=
  if start < stop then List.range' (start / cs) ((stop - 1) / cs + 1 - start / cs) else []

/-- One work item of the indexer: a chunk coordinate, the selection inside that
chunk (chunk-local coordinates) and the matching selection inside the output. -/
structure Triple where
  chunkCoord : List Nat
  chunkSel : Sel
  outSel : Sel
deriving DecidableEq

/-- Modelled from the spec: the within-chunk part of the triple for chunk `c`. -/
def tripleChunkSel (sel : Sel) (cs c : List Nat) : Sel :=
  List.zipWith
    (fun (p : (Nat × Nat) × Nat) ci =>
      (max p.1.1 (ci * p.2) - ci * p.2, min p.1.2 ((ci + 1) * p.2) - ci * p.2))
    (sel.zip cs) c

/-- Modelled from the spec: the within-output part of the triple for chunk `c`. -/
def tripleOutSel (sel : Sel) (cs c : List Nat) : Sel :=
  List.zipWith
    (fun (p : (Nat × Nat) × Nat) ci =>
      (max p.1.1 (ci * p.2) - p.1.1, min p.1.2 ((ci + 1) * p.2) - p.1.1))
    (sel.zip cs) c

/-- The indexer triple of chunk `c` for selection `sel` under chunk shape `cs`. -/
def mkTriple (sel : Sel) (cs c : List Nat) : Triple :=
  ⟨c, tripleChunkSel sel cs c, tripleOutSel sel cs c⟩

/-- Modelled from the spec: the chunk coordinates covering the selection,
row-major over chunk coordinates. -/
def indexerCoords (sel : Sel) (cs : List Nat) : List (List Nat) :=
  cartProd (List.zipWith (fun (p : Nat × Nat) k => axisChunks p.1 p.2 k) sel cs)

/-- Modelled from the spec (`BasicIndexer`): the lazy sequence of
`(chunk_coord, in_chunk_slice, out_slice)` triples covering the selection. -/
def indexerTriples (sel : Sel) (cs : List Nat) : List Triple :=
  (indexerCoords sel cs).map (mkTriple sel cs)

/-- The chunk coordinate whose block contains logical position `start + idx`
of the selection, per axis `(start + idx) / chunk_shape`. -/
def coordOf (sel : Sel) (cs idx : List Nat) : List Nat :=
  List.zipWith (fun (p : (Nat × Nat) × Nat) j => (p.1.1 + j) / p.2) (sel.zip cs) idx

/-! Chunk keys.  Modelled from the spec (`zarrita/metadata.py` is not among
the sources): the default chunk-key encoding is `"c" + sep.join(coords)` with
decimal coordinates; rank 0 gives the literal `"c"`. -/

/-- Decimal digit character for a digit value below ten. -/
def digitChar (d : Nat) : Char := Char.ofNat (48 + d)

/-- Decimal representation of a natural number as characters. -/
def natChars (n : Nat) : List Char :=
  if n = 0 then ['0'] else (Nat.digits 10 n).reverse.map digitChar

/-- Numeric value of a digit character (used to decode chunk keys in proofs). -/
def digitVal (ch : Char) : Nat := ch.toNat - 48

/-- Join character lists with a separator character. -/
def sepJoin (sep : Char) : List (List Char) → List Char
  | [] => []
  | [x] => x
  | x :: y :: ys => x ++ sep :: sepJoin sep (y :: ys)

/-- Modelled from the spec: the default chunk-key encoding with separator `/`. -/
def encodeChunkKey (coords : List Nat) : String :=
  ⟨'c' :: sepJoin '/' (coords.map natChars)⟩

/-- The metadata document key. -/
def zarrJsonKey : String := "zarr.json"

/-! The store, as the key-value contract of `zarrita/store.py`:
string keys mapped to byte blobs (one abstract `Int` per stored cell). -/

/-- A store state: an association list from keys to blobs. -/
abbrev Store := List (String × List Int)

/-- Lookup of a key (`store.get_async` at the key-value level). -/
def storeGet (st : Store) (k : String) : Option (List Int) :=
  (st.find? (fun p => p.1 == k)).map Prod.snd

/-- Removal of a key (`store.delete_async` at the key-value level). -/
def storeDelete (st : Store) (k : String) : Store :=
  st.filter (fun p => p.1 != k)

/-- Replacement of a key's blob (`store.set_async` at the key-value level). -/
def storeSet (st : Store) (k : String) (v : List Int) : Store :=
  (k, v) :: storeDelete st k

/-! The codec pipeline.  Modelled from the spec (`zarrita/codecs.py` is not
among the sources): the default pipeline is the lone endian codec, which
serializes a chunk row-major and deserializes by reshaping to the chunk shape. -/

/-- Modelled from the spec: encoding a chunk array serializes its cells in
row-major order. -/
def encodeChunkBytes (cs : List Nat) (a : Arr) : List Int :=
  (allIndices cs).map a

/-- Modelled from the spec: decoding reads the row-major buffer back as an
array of the declared chunk shape (the reshape of `Array._decode_chunk`). -/
def decodeChunkBytes (cs : List Nat) (bytes : List Int) : Arr :=
  fun idx => bytes.getD (linearIndex cs idx) 0

/-! The array engine of `zarrita/array.py`, non-sharding codec path. -/

/-- The output allocated by `Array._get_async` (`np.zeros`). -/
def zerosArr : Arr := fun _ => 0

/-- Embedding of `Array._read_chunk` (non-sharding path): an absent chunk fills
the output region with the fill value, a present one is decoded and its
`chunk_selection` is copied to the `out_selection`. -/
def readChunk (cs : List Nat) (fill : Int) (st : Store) (out : Arr) (t : Triple) : Arr :=
  match storeGet st (encodeChunkKey t.chunkCoord) with
  | none => setRegion out t.outSel (fun _ => fill)
  | some bytes =>
    setRegion out t.outSel (fun j => decodeChunkBytes cs bytes (shiftIdx (selStarts t.chunkSel) j))

/-- Embedding of `Array._get_async`: fold the per-chunk reads over the
indexer's triples into a zero-initialized output. -/
def getAsync (cs : List Nat) (fill : Int) (st : Store) (sel : Sel) : Arr :=
  (indexerTriples sel cs).foldl (readChunk cs fill st) zerosArr

/-- Embedding of `Array._write_chunk_to_store`: a chunk that contains only the
fill value is removed from the store, any other chunk is encoded and written. -/
def writeChunkToStore (cs : List Nat) (fill : Int) (st : Store) (key : String)
    (chunkArr : Arr) : Store :=
  if (allIndices cs).all (fun p => chunkArr p == fill) then storeDelete st key
  else storeSet st key (encodeChunkBytes cs chunkArr)

/-- Embedding of `Array._write_chunk` (non-sharding, non-scalar path): a total
slice writes `value[out_selection]` as the whole chunk; a partial slice
reads and decodes the existing chunk (or a fill-initialized one), overlays
`value[out_selection]` at the `chunk_selection`, and writes the result. -/
def writeChunk (cs : List Nat) (fill : Int) (v : Arr) (st : Store) (t : Triple) : Store :=
  if isTotalSlice t.chunkSel cs then
    writeChunkToStore cs fill st (encodeChunkKey t.chunkCoord)
      (fun p => v (shiftIdx (selStarts t.outSel) p))
  else
    writeChunkToStore cs fill st (encodeChunkKey t.chunkCoord)
      (setRegion
        (match storeGet st (encodeChunkKey t.chunkCoord) with
          | none => fun _ => fill
          | some bytes => decodeChunkBytes cs bytes)
        t.chunkSel (fun p => v (shiftIdx (selStarts t.outSel) p)))

/-- Embedding of `Array._set_async` for a non-scalar value of matching shape
and dtype: fold the per-chunk writes over the indexer's triples. -/
def setAsync (cs : List Nat) (fill : Int) (st : Store) (sel : Sel) (v : Arr) : Store :=
  (indexerTriples sel cs).foldl (writeChunk cs fill v) st

/-- A sequence of writes applied in order. -/
def applyWrites (cs : List Nat) (fill : Int) (st : Store) (ws : List (Sel × Arr)) : Store :=
  ws.foldl (fun s w => setAsync cs fill s w.1 w.2) st

/-! Resize and creation (`Array.resize_async`, `Array.create_async`). -/

/-- Ceiling division, the chunk count along one axis. -/
def ceilDiv (a b : Nat) : Nat := (a + b - 1) / b

/-- Modelled from the spec (`all_chunk_coords` of `zarrita/indexing.py` is not
among the sources): all chunk coordinates of the grid of a shape. -/
def allChunkCoords (shape cs : List Nat) : List (List Nat) :=
  cartProd (List.zipWith (fun n k => List.range (ceilDiv n k)) shape cs)

/-- Modelled from the spec: the serialized metadata document (`json.dumps` of
the metadata is external; the model keeps an injective image of the shape). -/
def metaDocBytes (shape : List Nat) : List Int := 3 :: shape.map Int.ofNat

/-- Embedding of `Array.resize_async`: under the rank assertion, delete the
chunks present in the old grid but absent from the new one, then rewrite the
metadata document with the new shape. -/
def resizeAsync (shape cs newShape : List Nat) (st : Store) : Option Store :=
  if newShape.length = shape.length then
    let deleted := (allChunkCoords shape cs).filter
      (fun c => !((allChunkCoords newShape cs).contains c))
    some (storeSet
      (deleted.foldl (fun s c => storeDelete s (encodeChunkKey c)) st)
      zarrJsonKey (metaDocBytes newShape))
  else none

/-- Embedding of the store interaction of `Array.create_async` and
`Array._save_metadata`: without `exists_ok` an existing metadata document is
an assertion failure before anything is written; the rank validation of
`Array._validate_metadata` guards the write. -/
def createArrayMeta (st : Store) (existsOk : Bool) (shape cs : List Nat) : Option Store :=
  if !existsOk && (storeGet st zarrJsonKey).isSome then none
  else if shape.length = cs.length then
    some (storeSet st zarrJsonKey (metaDocBytes shape))
  else none

/-! The local filesystem store (`LocalStore` of `zarrita/store.py`). -/

/-- A filesystem entry is a regular file with contents, or a directory. -/
inductive FsEntry where
  | file (content : List Int)
  | dir
deriving DecidableEq

/-- A filesystem state for `LocalStore`, keyed by path. -/
abbrev Fs := List (String × FsEntry)

/-- Embedding of `LocalStore.get_async` without a byte range: a missing path
(`FileNotFoundError`) or a directory (`IsADirectoryError`) yields absent. -/
def localGetAsync (fs : Fs) (k : String) : Option (List Int) :=
  match (fs.find? (fun p => p.1 == k)).map Prod.snd with
  | some (.file b) => some b
  | some .dir => none
  | none => none

/-- Embedding of `Path.unlink(missing_ok)`: removing an existing key succeeds,
removing a missing key succeeds only when `missing_ok` is set. -/
def unlinkFile (missingOk : Bool) (st : Store) (k : String) : Except Unit Store :=
  if (storeGet st k).isSome then .ok (storeDelete st k)
  else if missingOk then .ok st else .error ()

/-- Embedding of `LocalStore.delete_async`: `path.unlink(True)`. -/
def localDeleteAsync (st : Store) (k : String) : Except Unit Store :=
  unlinkFile true st k

/-- Embedding of `RemoteStore.delete_async`: remove the path only if it exists. -/
def remoteDeleteAsync (st : Store) (k : String) : Store :=
  if (storeGet st k).isSome then storeDelete st k else st

/-! Byte ranges (`LocalStore._cat_file`). -/

/-- Embedding of `f.read(count)` at position `pos`: a negative count reads to
the end of the object, a non-negative one reads at most `count` bytes. -/
def subBytes (data : List Nat) (pos : Nat) (count : Int) : List Nat :=
  if count < 0 then data.drop pos else (data.drop pos).take count.toNat

/-- Embedding of `LocalStore._cat_file`: seek to `start` (a negative start
seeks to `max 0 (size + start)`, no start leaves the position at the end of
the size-probing seek), resolve a negative `end` against the size, and read
`end - tell()` bytes (or everything from the position when `end` is absent). -/
def catFile (data : List Nat) (start stop : Option Int) : List Nat :=
  match start, stop with
  | none, none => data
  | _, _ =>
    let size : Int := data.length
    let pos : Nat :=
      match start with
      | none => data.length
      | some s => if 0 ≤ s then s.toNat else (max 0 (size + s)).toNat
    match stop with
    | some e =>
      let e2 : Int := if e < 0 then size + e else e
      subBytes data pos (e2 - (pos : Int))
    | none => data.drop pos

/-- The seek position the specification ascribes to a `start` endpoint. -/
def resolvedPos (n : Nat) (s : Int) : Nat :=
  if 0 ≤ s then s.toNat else (max 0 ((n : Int) + s)).toNat

/-- The exclusive end position the specification ascribes to an `end` endpoint. -/
def resolvedEnd (n : Nat) (e : Int) : Int :=
  if e < 0 then (n : Int) + e else e

/-- Modelled from the spec's words, for comparison with `catFile`: the returned
bytes are exactly the subrange `[resolvedPos, resolvedEnd)` of the object. -/
def claimedSubrange (data : List Nat) (s e : Int) : List Nat :=
  (data.drop (resolvedPos data.length s)).take
    (resolvedEnd data.length e - (resolvedPos data.length s : Int)).toNat

/-! Element types.  This part of the model works at the byte level, so that the
numpy operations `astype` (numeric cast) and `view` (byte reinterpretation)
used by `Array._set_async` and `Array._decode_chunk` are distinguishable. -/

/-- The element types supported by the format. -/
inductive DataType where
  | bool | int8 | int16 | int32 | int64
  | uint8 | uint16 | uint32 | uint64
  | float32 | float64
deriving DecidableEq

/-- Bytes per element of a data type. -/
def DataType.itemsize : DataType → Nat
  | .bool => 1
  | .int8 => 1
  | .int16 => 2
  | .int32 => 4
  | .int64 => 8
  | .uint8 => 1
  | .uint16 => 2
  | .uint32 => 4
  | .uint64 => 8
  | .float32 => 4
  | .float64 => 8

/-- Assemble little-endian bytes into a bit pattern. -/
def leBytesToNat : List Nat → Nat
  | [] => 0
  | b :: rest => b + 256 * leBytesToNat rest

/-- Split a bit pattern into `w` little-endian bytes. -/
def natToLeBytes : Nat → Nat → List Nat
  | 0, _ => []
  | w + 1, n => (n % 256) :: natToLeBytes w (n / 256)

/-- A dyadic rational `num / 2 ^ scale`: the exact value domain of the
supported element types (integers and binary floating-point values). -/
structure Dyadic where
  num : Int
  scale : Nat
deriving DecidableEq

/-- Floor of a dyadic rational (the denominator `2 ^ scale` is positive). -/
def Dyadic.floor (a : Dyadic) : Int := a.num / ((2 : Int) ^ a.scale)

/-- Truncation of a dyadic rational toward zero, the C conversion numpy
applies from floats to integers. -/
def Dyadic.trunc (a : Dyadic) : Int :=
  if 0 ≤ a.num then a.num / ((2 : Int) ^ a.scale)
  else -((-a.num) / ((2 : Int) ^ a.scale))

/-- Round a dyadic rational to the nearest integer, ties to even. -/
def roundNearestEven (a : Dyadic) : Int :=
  let f := a.floor
  let r := a.num - f * 2 ^ a.scale
  if 2 * r < 2 ^ a.scale then f
  else if (2 : Int) ^ a.scale < 2 * r then f + 1
  else if f % 2 = 0 then f else f + 1

/-- IEEE-754 binary decoding with `eb` exponent and `mb` mantissa bits;
`none` for the infinity and NaN patterns. -/
def floatDecodeBits (eb mb bits : Nat) : Option Dyadic :=
  let s := bits / 2 ^ (eb + mb) % 2
  let e := bits / 2 ^ mb % 2 ^ eb
  let m := bits % 2 ^ mb
  if e = 2 ^ eb - 1 then none
  else
    let bias := 2 ^ (eb - 1) - 1
    let num : Nat := (m + if e = 0 then 0 else 2 ^ mb) * 2 ^ max e 1
    some ⟨if s = 1 then -(num : Int) else (num : Int), mb + bias⟩

/-- IEEE-754 binary encoding with `eb` exponent and `mb` mantissa bits,
round to nearest, ties to even; overflow encodes the infinity pattern. -/
def floatEncodeBits (eb mb : Nat) (q : Dyadic) : Nat :=
  let bias : Nat := 2 ^ (eb - 1) - 1
  let sgn : Nat := if q.num < 0 then 2 ^ (eb + mb) else 0
  if q.num = 0 then 0
  else
    let xn : Int := (q.num.natAbs : Int) * 2 ^ bias
    let e : Nat := (List.range (2 ^ eb)).foldl
      (fun acc i => if (2 : Int) ^ (i + q.scale) ≤ xn then i else acc) 0
    if e = 0 then
      let m := (roundNearestEven ⟨xn * 2 ^ (mb - 1), q.scale⟩).toNat
      if 2 ^ mb ≤ m then sgn + 2 ^ mb else sgn + m
    else
      let m2 := (roundNearestEven ⟨xn * 2 ^ mb, q.scale + e⟩).toNat
      if 2 ^ (mb + 1) ≤ m2 then
        if 2 ^ eb - 1 ≤ e + 1 then sgn + (2 ^ eb - 1) * 2 ^ mb
        else sgn + (e + 1) * 2 ^ mb
      else if 2 ^ eb - 1 ≤ e then sgn + (2 ^ eb - 1) * 2 ^ mb
      else sgn + e * 2 ^ mb + (m2 - 2 ^ mb)

/-- Two's-complement value of a `w`-bit pattern. -/
def signedVal (w bits : Nat) : Int :=
  if bits < 2 ^ (w - 1) then (bits : Int) else (bits : Int) - 2 ^ w

/-- Numeric value of a bit pattern under a data type (`none` for NaN/infinity). -/
def dtypeValOfBits (dt : DataType) (bits : Nat) : Option Dyadic :=
  match dt with
  | .bool => some ⟨if bits = 0 then 0 else 1, 0⟩
  | .uint8 | .uint16 | .uint32 | .uint64 => some ⟨(bits : Int), 0⟩
  | .int8 => some ⟨signedVal 8 bits, 0⟩
  | .int16 => some ⟨signedVal 16 bits, 0⟩
  | .int32 => some ⟨signedVal 32 bits, 0⟩
  | .int64 => some ⟨signedVal 64 bits, 0⟩
  | .float32 => floatDecodeBits 8 23 bits
  | .float64 => floatDecodeBits 11 52 bits

/-- Reduce an integer to a `w`-bit pattern (two's-complement wrap-around). -/
def wrapToWidth (w : Nat) (n : Int) : Nat := (n % ((2 : Int) ^ w)).toNat

/-- Numeric conversion of a value into the bit pattern of a target data type
(the per-element behavior of `ndarray.astype`). -/
def castValToBits (dt : DataType) (v : Option Dyadic) : Nat :=
  match dt, v with
  | .float32, some q => floatEncodeBits 8 23 q
  | .float32, none => 0x7FC00000
  | .float64, some q => floatEncodeBits 11 52 q
  | .float64, none => 0x7FF8000000000000
  | .bool, some q => if q.num = 0 then 0 else 1
  | .bool, none => 1
  | dt', some q => wrapToWidth (8 * dt'.itemsize) q.trunc
  | _, none => 0

/-- A typed numpy array: a data type, a shape, and the flat row-major bytes. -/
structure TArr where
  dtype : DataType
  shape : List Nat
  bytes : List Nat
deriving DecidableEq

/-- Split a flat byte list into its consecutive groups of `w` bytes (the
per-element grouping of a flat buffer; a ragged tail cannot occur for a
well-formed array and is ignored). -/
def groupBytes (w : Nat) (l : List Nat) : List (List Nat) :=
  (List.range (l.length / w)).map (fun i => (l.drop (i * w)).take w)

/-- Embedding of `ndarray.astype` (numeric cast): convert every element's value
into the target data type, regardless of bit widths. -/
def astype (a : TArr) (dt : DataType) : TArr :=
  { dtype := dt
    shape := a.shape
    bytes := (groupBytes a.dtype.itemsize a.bytes).flatMap
      (fun eb => natToLeBytes dt.itemsize (castValToBits dt (dtypeValOfBits a.dtype (leBytesToNat eb)))) }

/-- Embedding of `ndarray.view` (byte reinterpretation) on a C-contiguous
array: the bytes are unchanged and the last axis is rescaled by the item
sizes; a non-divisible last axis (or a rank-0 size change) is an error. -/
def viewDtype (a : TArr) (dt : DataType) : Option TArr :=
  match a.shape with
  | [] => if dt.itemsize = a.dtype.itemsize then some { a with dtype := dt } else none
  | _ :: _ =>
    if a.shape.getLastD 0 * a.dtype.itemsize % dt.itemsize = 0 then
      some { dtype := dt
             shape := a.shape.dropLast ++ [a.shape.getLastD 0 * a.dtype.itemsize / dt.itemsize]
             bytes := a.bytes }
    else none

/-- Embedding of `ndarray.reshape`: the element count must be unchanged. -/
def reshapeTo (a : TArr) (ns : List Nat) : Option TArr :=
  if prodList ns = prodList a.shape then some { a with shape := ns } else none

/-- Embedding of the dtype/shape adjustment of `Array._decode_chunk`
(lines 371-379): a differing dtype is reinterpreted with `view`, a differing
shape is fixed with `reshape`. -/
def ensureDtypeShape (dt : DataType) (cs : List Nat) (a : TArr) : Option TArr :=
  match (if a.dtype ≠ dt then viewDtype a dt else some a) with
  | none => none
  | some b => if b.shape ≠ cs then reshapeTo b cs else some b

/-- A value passed to `__setitem__`: a scalar or a typed array. -/
inductive NpValue where
  | scalar (q : ℚ)
  | arr (a : TArr)
deriving DecidableEq

/-- Embedding of the value normalization of `Array._set_async` (lines 396-405):
scalars pass through; a non-scalar value must match the selection shape
(assertion), and a dtype mismatch is resolved with `astype`. -/
def normalizeValue (dt : DataType) (selShapeArg : List Nat) (v : NpValue) : Option NpValue :=
  match v with
  | .scalar q => some (.scalar q)
  | .arr a =>
    if a.shape ≠ selShapeArg then none
    else if a.dtype ≠ dt then some (.arr (astype a dt)) else some (.arr a)

/-! Fill-value handling of `Array.create_async` (line 147, `fill_value or 0`). -/

/-- A Python scalar value as it can arrive in `fill_value`. -/
inductive PyVal where
  | none
  | int (n : Int)
  | bool (b : Bool)
  | float (q : ℚ)
  | str (s : String)
deriving DecidableEq

/-- Python truthiness of a scalar. -/
def pyTruthy : PyVal → Bool
  | .none => false
  | .int n => n != 0
  | .bool b => b
  | .float q => q != 0
  | .str s => s != ""

/-- The Python expression `a or b`. -/
def pyOr (a b : PyVal) : PyVal := if pyTruthy a then a else b

/-- Embedding of `fill_value or 0` in `Array.create_async`: the metadata
fill value, with `PyVal.none` standing for an omitted argument. -/
def createFillValue (fv : PyVal) : PyVal := pyOr fv (.int 0)

/-- The chunk-elision invariant: no stored chunk key decodes to a chunk that
equals the fill value in every cell. -/
def chunkElisionInv (cs : List Nat) (fill : Int) (st : Store) : Prop :=
  ∀ co bytes, storeGet st (encodeChunkKey co) = some bytes →
    (allIndices cs).all (fun p => decodeChunkBytes cs bytes p == fill) = false

/-! Concrete inputs used by witnesses and counterexamples. -/

/-- A one-element float32 array holding 1.5 (bit pattern 0x3FC00000). -/
def cexFloatArr : TArr := ⟨.float32, [1], [0, 0, 192, 63]⟩

/-- The byte reinterpretation of `cexFloatArr` as int32. -/
def cexReinterp : TArr := ⟨.int32, [1], [0, 0, 192, 63]⟩

/-- A concrete one-dimensional value used by round-trip witnesses. -/
def wArr : Arr := fun idx => Int.ofNat (idx.headD 0) + 5

/-- A filesystem holding a directory at the chunk key of chunk `[0]`. -/
def fsDirChunk : Fs := [(⟨['c', '0']⟩, FsEntry.dir)]

/-! Store lemmas shared by several developments. -/

theorem find?_filter_key_self (st : Store) (k : String) :
    (st.filter (fun p => p.1 != k)).find? (fun p => p.1 == k) = none := by
  induction st with
  | nil => rfl
  | cons a st ih =>
    by_cases h : a.1 = k
    · have hb : (a.1 != k) = false := by simp [h]
      simpa [List.filter_cons, hb] using ih
    · have hb : (a.1 != k) = true := by simp [h]
      have hb2 : (a.1 == k) = false := by simp [h]
      simpa [List.filter_cons, hb, List.find?_cons, hb2] using ih

theorem find?_filter_key_ne (st : Store) (k k' : String) (h : k' ≠ k) :
    (st.filter (fun p => p.1 != k)).find? (fun p => p.1 == k') =
      st.find? (fun p => p.1 == k') := by
  induction st with
  | nil => rfl
  | cons a st ih =>
    by_cases ha : a.1 = k
    · have hb : (a.1 != k) = false := by simp [ha]
      have hb2 : (a.1 == k') = false := by
        simp only [beq_eq_false_iff_ne, ne_eq]
        intro hc
        exact h (hc ▸ ha ▸ rfl)
      simp [List.filter_cons, hb, List.find?_cons, hb2, ih]
    · have hb : (a.1 != k) = true := by simp [ha]
      by_cases hk' : a.1 = k'
      · have hb2 : (a.1 == k') = true := by simp [hk']
        simp [List.filter_cons, hb, List.find?_cons, hb2]
      · have hb2 : (a.1 == k') = false := by simp [hk']
        simp [List.filter_cons, hb, List.find?_cons, hb2, ih]

theorem storeGet_storeDelete_same (st : Store) (k : String) :
    storeGet (storeDelete st k) k = none := by
  simp [storeGet, storeDelete, find?_filter_key_self]

theorem storeGet_storeDelete_ne (st : Store) (k k' : String) (h : k' ≠ k) :
    storeGet (storeDelete st k) k' = storeGet st k' := by
  simp [storeGet, storeDelete, find?_filter_key_ne st k k' h]

theorem storeGet_storeSet_same (st : Store) (k : String) (v : List Int) :
    storeGet (storeSet st k v) k = some v := by
  simp [storeSet, storeGet, List.find?_cons]

theorem storeGet_storeSet_ne (st : Store) (k k' : String) (v : List Int) (h : k' ≠ k) :
    storeGet (storeSet st k v) k' = storeGet st k' := by
  have hb : (k == k') = false := by
    simp only [beq_eq_false_iff_ne, ne_eq]
    exact fun hc => h hc.symm
  simp only [storeSet, storeGet, List.find?_cons, hb]
  simpa [storeGet] using storeGet_storeDelete_ne st k k' h

theorem storeDelete_absent (st : Store) (k : String) (h : storeGet st k = none) :
    storeDelete st k = st := by
  have hf : st.find? (fun p => p.1 == k) = none := by
    cases hf : st.find? (fun p => p.1 == k) with
    | none => rfl
    | some a => simp [storeGet, hf] at h
  have hall := List.find?_eq_none.mp hf
  refine List.filter_eq_self.mpr ?_
  intro a ha
  have := hall a ha
  simpa using this

theorem storeDelete_storeDelete (st : Store) (k : String) :
    storeDelete (storeDelete st k) k = storeDelete st k :=
  storeDelete_absent _ _ (storeGet_storeDelete_same st k)

/-! Claims about the store layer and the metadata handling. -/

/-- C8: for every key, store delete is idempotent: deleting a missing key
succeeds without error (for both the local and the remote store), and a
second delete of the same key leaves the store exactly as one delete does. -/
theorem delete_idempotent (st : Store) (k : String) :
    localDeleteAsync st k = .ok (storeDelete st k) ∧
      remoteDeleteAsync st k = storeDelete st k ∧
      (storeGet st k = none → storeDelete st k = st) ∧
      storeDelete (storeDelete st k) k = storeDelete st k := by
  refine ⟨?_, ?_, storeDelete_absent st k, storeDelete_storeDelete st k⟩
  · unfold localDeleteAsync unlinkFile
    by_cases h : (storeGet st k).isSome
    · simp [h]
    · have hn : storeGet st k = none := by
        cases hget : storeGet st k with
        | none => rfl
        | some v => simp [hget] at h
      simp [h, storeDelete_absent st k hn]
  · unfold remoteDeleteAsync
    by_cases h : (storeGet st k).isSome
    · simp [h]
    · have hn : storeGet st k = none := by
        cases hget : storeGet st k with
        | none => rfl
        | some v => simp [hget] at h
      simp [h, storeDelete_absent st k hn]

/-- Witness for C8 at a concrete store and key. -/
theorem delete_idempotent_witness :
    localDeleteAsync [] zarrJsonKey = .ok (storeDelete [] zarrJsonKey) ∧
      remoteDeleteAsync [] zarrJsonKey = storeDelete [] zarrJsonKey ∧
      storeDelete [] zarrJsonKey = [] ∧
      storeDelete (storeDelete [] zarrJsonKey) zarrJsonKey = storeDelete [] zarrJsonKey := by
  have h := delete_idempotent [] zarrJsonKey
  exact ⟨h.1, h.2.1, h.2.2.1 rfl, h.2.2.2⟩

/-- C9: creating an array over a store that already holds a metadata document
fails (assertion) without overwriting it when `exists_ok` is false; with
`exists_ok` it proceeds and rewrites the metadata document. -/
theorem create_exists_ok (st : Store) (shape cs : List Nat)
    (hex : (storeGet st zarrJsonKey).isSome = true) :
    createArrayMeta st false shape cs = none ∧
      (shape.length = cs.length →
        ∃ st', createArrayMeta st true shape cs = some st' ∧
          storeGet st' zarrJsonKey = some (metaDocBytes shape) ∧
          ∀ k, k ≠ zarrJsonKey → storeGet st' k = storeGet st k) := by
  constructor
  · simp [createArrayMeta, hex]
  · intro hlen
    refine ⟨storeSet st zarrJsonKey (metaDocBytes shape), ?_, ?_, ?_⟩
    · simp [createArrayMeta, hlen]
    · exact storeGet_storeSet_same st zarrJsonKey (metaDocBytes shape)
    · intro k hk
      exact storeGet_storeSet_ne st zarrJsonKey k (metaDocBytes shape) hk

/-- Witness for C9 at a concrete store that already holds metadata. -/
theorem create_exists_ok_witness :
    createArrayMeta (storeSet [] zarrJsonKey (metaDocBytes [4])) false [4] [2] = none ∧
      (∃ st', createArrayMeta (storeSet [] zarrJsonKey (metaDocBytes [4])) true [4] [2] = some st' ∧
        storeGet st' zarrJsonKey = some (metaDocBytes [4]) ∧
        ∀ k, k ≠ zarrJsonKey →
          storeGet st' k = storeGet (storeSet [] zarrJsonKey (metaDocBytes [4])) k) := by
  have h := create_exists_ok (storeSet [] zarrJsonKey (metaDocBytes [4])) [4] [2] (by decide)
  exact ⟨h.1, h.2 rfl⟩

/-- C10: whenever the `fill_value` argument of `Array.create` is omitted
(`PyVal.none`) or has any falsy value such as `0.0` or `False`, the created
metadata's fill value is the integer `0`; it is never `None`. -/
theorem createFillValue_falsy (fv : PyVal) :
    (pyTruthy fv = false → createFillValue fv = .int 0) ∧ createFillValue fv ≠ .none := by
  constructor
  · intro h
    simp [createFillValue, pyOr, h]
  · cases h : pyTruthy fv with
    | false => simp [createFillValue, pyOr, h]
    | true =>
      simp only [createFillValue, pyOr, h, if_true]
      intro hn
      rw [hn] at h
      simp [pyTruthy] at h

/-- Witness for C10 at the falsy float `0.0`. -/
theorem createFillValue_falsy_witness :
    createFillValue (.float 0) = .int 0 ∧ createFillValue (.float 0) ≠ .none :=
  ⟨(createFillValue_falsy (.float 0)).1 (by decide), (createFillValue_falsy (.float 0)).2⟩

/-- C5: the dtype/shape adjustment of `Array._decode_chunk` always yields an
array with exactly the declared data type and chunk shape, and it only
reinterprets the byte pattern (the bytes are unchanged, no numeric cast). -/
theorem decode_chunk_adjustment (dt : DataType) (cs : List Nat) (a r : TArr)
    (h : ensureDtypeShape dt cs a = some r) :
    r.dtype = dt ∧ r.shape = cs ∧ r.bytes = a.bytes := by
  have hview : ∀ b : TArr, viewDtype a dt = some b → b.dtype = dt ∧ b.bytes = a.bytes := by
    intro b hb
    unfold viewDtype at hb
    split at hb
    · split_ifs at hb
      cases hb
      exact ⟨rfl, rfl⟩
    · split_ifs at hb
      cases hb
      exact ⟨rfl, rfl⟩
  have hstep : ∀ b : TArr, (if a.dtype ≠ dt then viewDtype a dt else some a) = some b →
      b.dtype = dt ∧ b.bytes = a.bytes := by
    intro b hb
    split_ifs at hb with hcond
    · exact hview b hb
    · cases hb
      exact ⟨by simpa using hcond, rfl⟩
  unfold ensureDtypeShape at h
  split at h
  · cases h
  · next b heq =>
    have hb := hstep b heq
    split_ifs at h with hsh
    · unfold reshapeTo at h
      split_ifs at h
      cases h
      exact ⟨hb.1, rfl, hb.2⟩
    · cases h
      exact ⟨hb.1, by simpa using hsh, hb.2⟩

/-- Witness for C5: an int8 buffer of four bytes decoded against a declared
int16 chunk of shape `[2]` is reinterpreted and keeps its bytes. -/
theorem decode_chunk_adjustment_witness :
    ensureDtypeShape .int16 [2] ⟨.int8, [4], [1, 2, 3, 4]⟩ = some ⟨.int16, [2], [1, 2, 3, 4]⟩ ∧
      DataType.int16 = .int16 ∧ ([2] : List Nat) = [2] ∧ ([1, 2, 3, 4] : List Nat) = [1, 2, 3, 4] := by
  refine ⟨by decide, ?_⟩
  exact decode_chunk_adjustment .int16 [2] ⟨.int8, [4], [1, 2, 3, 4]⟩ ⟨.int16, [2], [1, 2, 3, 4]⟩ (by decide)

/-- C7 counterexample: with an object of four bytes, start 3 and end 1, the
code returns the bytes from position 3 to the object's end, not the (empty)
subrange the claim describes. -/
theorem catFile_counterexample :
    catFile [10, 11, 12, 13] (some 3) (some 1) = [13] ∧
      claimedSubrange [10, 11, 12, 13] 3 1 = [] ∧
      catFile [10, 11, 12, 13] (some 3) (some 1) ≠ claimedSubrange [10, 11, 12, 13] 3 1 := by
  decide

/-- C7 (amended): byte-range reads behave as the claim states whenever the
resolved exclusive end does not precede the seek position: a non-negative
start seeks there, a negative start seeks to `max 0 (n + start)`, a negative
end means `n + end`, an unspecified end reads to the object's end, and the
result is exactly that subrange.  (When the resolved end precedes the
position, `f.read` receives a negative count and reads to the end instead.) -/
theorem catFile_byte_range (data : List Nat) (s e : Int)
    (h : (resolvedPos data.length s : Int) ≤ resolvedEnd data.length e) :
    catFile data (some s) (some e) = claimedSubrange data s e ∧
      catFile data (some s) none = data.drop (resolvedPos data.length s) := by
  constructor
  · unfold resolvedPos resolvedEnd at h
    unfold catFile claimedSubrange subBytes resolvedPos resolvedEnd
    have hc : ¬((if e < 0 then (data.length : Int) + e else e) -
        ((if 0 ≤ s then s.toNat else (max 0 ((data.length : Int) + s)).toNat : Nat) : Int) < 0) := by
      omega
    simp only [hc, if_false]
  · unfold catFile resolvedPos
    rfl

/-- Witness for C7 (amended) with a negative start and a positive end. -/
theorem catFile_byte_range_witness :
    catFile [10, 11, 12, 13] (some (-3)) (some 3) = claimedSubrange [10, 11, 12, 13] (-3) 3 ∧
      catFile [10, 11, 12, 13] (some (-3)) none =
        List.drop (resolvedPos 4 (-3)) [10, 11, 12, 13] :=
  catFile_byte_range [10, 11, 12, 13] (-3) 3 (by decide)

/-! Lemmas about byte grouping, for the `astype` characterization. -/

theorem natToLeBytes_length (w n : Nat) : (natToLeBytes w n).length = w := by
  induction w generalizing n with
  | zero => rfl
  | succ w ih => simp [natToLeBytes, ih]

theorem groupBytes_nil (w : Nat) : groupBytes w [] = [] := by
  simp [groupBytes]

theorem groupBytes_append (w : Nat) (x rest : List Nat) (hw : x.length = w) (hpos : 0 < w) :
    groupBytes w (x ++ rest) = x :: groupBytes w rest := by
  unfold groupBytes
  have hlen : (x ++ rest).length / w = rest.length / w + 1 := by
    rw [List.length_append, hw, Nat.add_comm]
    exact Nat.add_div_right _ hpos
  rw [hlen, List.range_succ_eq_map, List.map_cons]
  congr 1
  · rw [Nat.zero_mul, List.drop_zero, ← hw]
    exact List.take_left x rest
  · rw [List.map_map]
    refine List.map_congr_left ?_
    intro i hi
    have hdrop : (x ++ rest).drop ((i + 1) * w) = rest.drop (i * w) := by
      have h1 : (i + 1) * w = w + i * w := by ring
      rw [h1, ← List.drop_drop, ← hw, List.drop_left]
    simp [Function.comp, hdrop]

theorem groupBytes_flatMap (w : Nat) (hpos : 0 < w) (l : List (List Nat))
    (f : List Nat → List Nat) (hf : ∀ x ∈ l, (f x).length = w) :
    groupBytes w (l.flatMap f) = l.map f := by
  induction l with
  | nil => simpa using groupBytes_nil w
  | cons x xs ih =>
    rw [List.flatMap_cons, groupBytes_append w (f x) (xs.flatMap f) (hf x (by simp)) hpos]
    rw [List.map_cons]
    rw [ih (fun y hy => hf y (by simp [hy]))]

theorem itemsize_pos (dt : DataType) : 0 < dt.itemsize := by
  cases dt <;> decide

set_option maxRecDepth 100000 in
/-- C4 counterexample: a one-element float32 value of 1.5 written into an
int32 array has matching bit widths, yet the code converts it numerically
(`astype`, giving bytes of the integer 1) instead of bitwise-reinterpreting
it (which would keep the bytes of 1.5). -/
theorem set_value_not_reinterpreted :
    DataType.float32.itemsize = DataType.int32.itemsize ∧
      normalizeValue .int32 [1] (.arr cexFloatArr) = some (.arr (astype cexFloatArr .int32)) ∧
      (astype cexFloatArr .int32).bytes = [1, 0, 0, 0] ∧
      viewDtype cexFloatArr .int32 = some cexReinterp ∧
      (astype cexFloatArr .int32).bytes ≠ cexReinterp.bytes := by
  refine ⟨by decide, by decide, by decide, by decide, by decide⟩

/-- C4 (amended): for every write with a non-scalar value, the value's shape
must equal the selection's shape (a mismatch fails the assertion), and a value
whose dtype differs from the array's dtype is always numerically cast
(`astype`, elementwise value conversion) to the array's dtype — regardless of
bit widths — before being written; a matching dtype passes through unchanged. -/
theorem set_value_normalization (dt : DataType) (selShapeArg : List Nat) (a : TArr) :
    (a.shape ≠ selShapeArg → normalizeValue dt selShapeArg (.arr a) = none) ∧
      (a.shape = selShapeArg → a.dtype = dt →
        normalizeValue dt selShapeArg (.arr a) = some (.arr a)) ∧
      (a.shape = selShapeArg → a.dtype ≠ dt →
        normalizeValue dt selShapeArg (.arr a) = some (.arr (astype a dt)) ∧
          (astype a dt).dtype = dt ∧
          (astype a dt).shape = selShapeArg ∧
          groupBytes dt.itemsize (astype a dt).bytes =
            (groupBytes a.dtype.itemsize a.bytes).map
              (fun eb => natToLeBytes dt.itemsize
                (castValToBits dt (dtypeValOfBits a.dtype (leBytesToNat eb))))) := by
  refine ⟨?_, ?_, ?_⟩
  · intro hne
    simp [normalizeValue, hne]
  · intro hsh hdt
    simp [normalizeValue, hsh, hdt]
  · intro hsh hdt
    refine ⟨by simp [normalizeValue, hsh, hdt], rfl, by simpa [astype] using hsh, ?_⟩
    unfold astype
    exact groupBytes_flatMap dt.itemsize (itemsize_pos dt) _ _
      (fun x _ => natToLeBytes_length _ _)

/-! Pointwise characterizations of the grid predicates. -/

theorem zip_all_iff {α β : Type} (l1 : List α) (l2 : List β) (p : α × β → Bool) :
    ((l1.zip l2).all p = true) ↔
      ∀ i (h1 : i < l1.length) (h2 : i < l2.length), p (l1[i], l2[i]) = true := by
  rw [List.all_eq_true]
  constructor
  · intro h i h1 h2
    have hm : (l1[i], l2[i]) ∈ l1.zip l2 := by
      refine List.mem_iff_getElem.mpr ⟨i, ?_, ?_⟩
      · rw [List.length_zip]
        exact lt_min h1 h2
      · rw [List.getElem_zip]
    exact h _ hm
  · intro h x hx
    obtain ⟨i, hi, hxe⟩ := List.mem_iff_getElem.mp hx
    rw [List.length_zip, lt_min_iff] at hi
    rw [List.getElem_zip] at hxe
    rw [← hxe]
    exact h i hi.1 hi.2

theorem inSelB_iff (sel : Sel) (idx : List Nat) :
    inSelB sel idx = true ↔ sel.length = idx.length ∧
      ∀ i (h1 : i < idx.length) (h2 : i < sel.length),
        sel[i].1 ≤ idx[i] ∧ idx[i] < sel[i].2 := by
  unfold inSelB
  rw [Bool.and_eq_true, beq_iff_eq, zip_all_iff]
  constructor
  · rintro ⟨hl, h⟩
    refine ⟨hl, fun i h1 h2 => ?_⟩
    simpa using h i h1 h2
  · rintro ⟨hl, h⟩
    refine ⟨hl, fun i h1 h2 => ?_⟩
    simpa using h i h1 h2

theorem inShapeB_iff (shape idx : List Nat) :
    inShapeB shape idx = true ↔ shape.length = idx.length ∧
      ∀ i (h1 : i < idx.length) (h2 : i < shape.length), idx[i] < shape[i] := by
  unfold inShapeB
  rw [Bool.and_eq_true, beq_iff_eq, zip_all_iff]
  constructor
  · rintro ⟨hl, h⟩
    refine ⟨hl, fun i h1 h2 => ?_⟩
    simpa using h i h1 h2
  · rintro ⟨hl, h⟩
    refine ⟨hl, fun i h1 h2 => ?_⟩
    simpa using h i h1 h2

theorem isTotalSlice_iff (sel : Sel) (cs : List Nat) :
    isTotalSlice sel cs = true ↔ sel.length = cs.length ∧
      ∀ i (h1 : i < sel.length) (h2 : i < cs.length), sel[i].1 = 0 ∧ sel[i].2 = cs[i] := by
  unfold isTotalSlice
  rw [Bool.and_eq_true, beq_iff_eq, zip_all_iff]
  constructor
  · rintro ⟨hl, h⟩
    refine ⟨hl, fun i h1 h2 => ?_⟩
    simpa using h i h1 h2
  · rintro ⟨hl, h⟩
    refine ⟨hl, fun i h1 h2 => ?_⟩
    simpa using h i h1 h2

/-! Cartesian products, the index enumeration and the linear index. -/

theorem prodList_cons (a : Nat) (l : List Nat) : prodList (a :: l) = a * prodList l := rfl

theorem flatMap_const_length {α β : Type} (l : List α) (f : α → List β) (L : Nat)
    (hf : ∀ x ∈ l, (f x).length = L) : (l.flatMap f).length = l.length * L := by
  induction l with
  | nil => simp
  | cons a l ih =>
    rw [List.flatMap_cons, List.length_append, hf a (by simp),
      ih (fun x hx => hf x (by simp [hx]))]
    simp [Nat.succ_mul, Nat.add_comm]

theorem cartProd_mem_iff (ls : List (List Nat)) (x : List Nat) :
    x ∈ cartProd ls ↔ x.length = ls.length ∧
      ∀ i (h1 : i < x.length) (h2 : i < ls.length), x[i] ∈ ls[i] := by
  induction ls generalizing x with
  | nil =>
    constructor
    · intro hx
      simp only [cartProd, List.mem_singleton] at hx
      subst hx
      exact ⟨rfl, fun i h1 h2 => absurd h2 (by simp)⟩
    · rintro ⟨hl, _⟩
      have : x = [] := List.eq_nil_of_length_eq_zero hl
      simp [cartProd, this]
  | cons l ls ih =>
    constructor
    · intro hx
      simp only [cartProd, List.mem_flatMap, List.mem_map] at hx
      obtain ⟨a, ha, y, hy, rfl⟩ := hx
      obtain ⟨hyl, hys⟩ := (ih y).mp hy
      refine ⟨by simp [hyl], ?_⟩
      intro i h1 h2
      cases i with
      | zero => simpa using ha
      | succ i =>
        simp only [List.getElem_cons_succ]
        exact hys i (by simpa using h1) (by simpa using h2)
    · rintro ⟨hl, h⟩
      cases x with
      | nil => simp at hl
      | cons a y =>
        simp only [cartProd, List.mem_flatMap, List.mem_map]
        refine ⟨a, ?_, y, ?_, rfl⟩
        · simpa using h 0 (by simp) (by simp)
        · refine (ih y).mpr ⟨by simpa using hl, ?_⟩
          intro i h1 h2
          simpa using h (i + 1) (by simpa using h1) (by simpa using h2)

theorem allIndices_length (cs : List Nat) : (allIndices cs).length = prodList cs := by
  induction cs with
  | nil => rfl
  | cons k ks ih =>
    show ((List.range k).flatMap fun x => (cartProd ((ks.map List.range))).map (x :: ·)).length = _
    rw [flatMap_const_length _ _ (prodList ks) (fun x _ => by
      rw [List.length_map]
      exact ih)]
    simp [prodList_cons]

theorem mem_allIndices_iff (cs idx : List Nat) :
    idx ∈ allIndices cs ↔ inShapeB cs idx = true := by
  rw [allIndices, cartProd_mem_iff, inShapeB_iff]
  constructor
  · rintro ⟨hl, h⟩
    rw [List.length_map] at hl
    refine ⟨hl.symm, fun i h1 h2 => ?_⟩
    have := h i h1 (by simpa using h2)
    simpa [List.getElem_map, List.mem_range] using this
  · rintro ⟨hl, h⟩
    refine ⟨by simpa using hl.symm, fun i h1 h2 => ?_⟩
    rw [List.length_map] at h2
    simpa [List.getElem_map, List.mem_range] using h i h1 h2

theorem linearIndex_aux (ks is : List Nat) (a : Nat) (h : is.length = ks.length) :
    (ks.zip is).foldl (fun acc p => acc * p.1 + p.2) a =
      a * prodList ks + (ks.zip is).foldl (fun acc p => acc * p.1 + p.2) 0 := by
  induction ks generalizing is a with
  | nil => simp [prodList]
  | cons k ks ih =>
    cases is with
    | nil => simp at h
    | cons i is =>
      simp only [List.zip_cons_cons, List.foldl_cons]
      rw [ih is (a * k + i) (by simpa using h), ih is (0 * k + i) (by simpa using h)]
      simp only [prodList_cons, Nat.zero_mul, Nat.zero_add]
      ring

theorem linearIndex_cons (k i : Nat) (ks is : List Nat) (h : is.length = ks.length) :
    linearIndex (k :: ks) (i :: is) = i * prodList ks + linearIndex ks is := by
  unfold linearIndex
  simp only [List.zip_cons_cons, List.foldl_cons]
  rw [linearIndex_aux ks is (0 * k + i) h]
  simp

theorem linearIndex_lt (cs idx : List Nat) (h : inShapeB cs idx = true) :
    linearIndex cs idx < prodList cs := by
  induction cs generalizing idx with
  | nil =>
    obtain ⟨hl, _⟩ := (inShapeB_iff _ _).mp h
    have : idx = [] := List.eq_nil_of_length_eq_zero hl.symm
    subst this
    simp [linearIndex, prodList]
  | cons k ks ih =>
    obtain ⟨hl, hall⟩ := (inShapeB_iff _ _).mp h
    cases idx with
    | nil => simp at hl
    | cons i is =>
      have hik : i < k := by simpa using hall 0 (by simp) (by simp)
      have hrest : inShapeB ks is = true := by
        rw [inShapeB_iff]
        refine ⟨by simpa using hl, fun j h1 h2 => ?_⟩
        simpa using hall (j + 1) (by simpa using h1) (by simpa using h2)
      have hlt := ih is hrest
      rw [linearIndex_cons k i ks is (by simpa using hl.symm), prodList_cons]
      calc i * prodList ks + linearIndex ks is
          < i * prodList ks + prodList ks := by omega
        _ = (i + 1) * prodList ks := by ring
        _ ≤ k * prodList ks := Nat.mul_le_mul_right _ hik

theorem flatMap_getElem_uniform {α β : Type} (l : List α) (f : α → List β) (P i r : Nat)
    (hP : ∀ x ∈ l, (f x).length = P) (hi : i < l.length) (hr : r < P) :
    (l.flatMap f)[i * P + r]? = (f l[i])[r]? := by
  induction l generalizing i with
  | nil => simp at hi
  | cons a l ih =>
    cases i with
    | zero =>
      simp only [List.flatMap_cons, Nat.zero_mul, Nat.zero_add]
      rw [List.getElem?_append_left (by rw [hP a (by simp)]; exact hr)]
      simp
    | succ i =>
      have hfa : (f a).length = P := hP a (by simp)
      have harith : (i + 1) * P = i * P + P := by ring
      simp only [List.flatMap_cons]
      rw [List.getElem?_append_right (by rw [hfa]; omega)]
      rw [hfa, show (i + 1) * P + r - P = i * P + r by omega]
      rw [ih i (fun x hx => hP x (by simp [hx])) (by simpa using hi)]
      simp

theorem allIndices_getElem? (cs idx : List Nat) (h : inShapeB cs idx = true) :
    (allIndices cs)[linearIndex cs idx]? = some idx := by
  induction cs generalizing idx with
  | nil =>
    obtain ⟨hl, _⟩ := (inShapeB_iff _ _).mp h
    have : idx = [] := List.eq_nil_of_length_eq_zero hl.symm
    subst this
    rfl
  | cons k ks ih =>
    obtain ⟨hl, hall⟩ := (inShapeB_iff _ _).mp h
    cases idx with
    | nil => simp at hl
    | cons i is =>
      have hik : i < k := by simpa using hall 0 (by simp) (by simp)
      have hrest : inShapeB ks is = true := by
        rw [inShapeB_iff]
        refine ⟨by simpa using hl, fun j h1 h2 => ?_⟩
        simpa using hall (j + 1) (by simpa using h1) (by simpa using h2)
      rw [linearIndex_cons k i ks is (by simpa using hl.symm)]
      show ((List.range k).flatMap fun x => (cartProd (ks.map List.range)).map (x :: ·))[
        i * prodList ks + linearIndex ks is]? = some (i :: is)
      rw [flatMap_getElem_uniform (List.range k) _ (prodList ks) i (linearIndex ks is)
        (fun x _ => by rw [List.length_map]; exact allIndices_length ks)
        (by simpa using hik) (linearIndex_lt ks is hrest)]
      rw [List.getElem?_map]
      have := ih is hrest
      rw [show cartProd (ks.map List.range) = allIndices ks from rfl, this]
      simp

theorem decode_encode (cs : List Nat) (a : Arr) (idx : List Nat)
    (h : inShapeB cs idx = true) :
    decodeChunkBytes cs (encodeChunkBytes cs a) idx = a idx := by
  unfold decodeChunkBytes encodeChunkBytes
  rw [List.getD_eq_getElem?_getD, List.getElem?_map, allIndices_getElem? cs idx h]
  rfl

theorem encode_all_eq_fill (cs : List Nat) (a : Arr) (fill : Int) :
    (encodeChunkBytes cs a).all (fun b => b == fill) =
      (allIndices cs).all (fun p => a p == fill) := by
  unfold encodeChunkBytes
  induction allIndices cs with
  | nil => rfl
  | cons p ps ih => simp [List.all_cons, ih]

/-! Per-axis arithmetic of the chunk decomposition. -/

theorem axis_div_facts (q k : Nat) (hk : 0 < k) :
    q / k * k ≤ q ∧ q < q / k * k + k := by
  have h1 := Nat.div_add_mod q k
  have h2 : k * (q / k) = q / k * k := Nat.mul_comm _ _
  have h3 : q % k < k := Nat.mod_lt _ hk
  omega

theorem axis_div_unique (q k c : Nat) (hk : 0 < k) (h1 : c * k ≤ q) (h2 : q < c * k + k) :
    q / k = c := by
  have hd := axis_div_facts q k hk
  have hle : c ≤ q / k := by
    rw [Nat.le_div_iff_mul_le hk]
    exact h1
  have hge : q / k ≤ c := by
    by_contra hgt
    have : c + 1 ≤ q / k := by omega
    have := (Nat.le_div_iff_mul_le hk).mp this
    have hexp : (c + 1) * k = c * k + k := by ring
    omega
  omega

theorem mem_axisChunks_iff (s t k c : Nat) (hk : 0 < k) :
    c ∈ axisChunks s t k ↔ s < t ∧ s / k ≤ c ∧ c ≤ (t - 1) / k := by
  unfold axisChunks
  by_cases h : s < t
  · rw [if_pos h, List.mem_range'_1]
    have hmono : s / k ≤ (t - 1) / k := Nat.div_le_div_right (by omega)
    constructor
    · rintro ⟨h1, h2⟩
      exact ⟨h, h1, by omega⟩
    · rintro ⟨_, h1, h2⟩
      exact ⟨h1, by omega⟩
  · simp [h]

theorem axisChunks_nodup (s t k : Nat) : (axisChunks s t k).Nodup := by
  unfold axisChunks
  split_ifs
  · exact List.nodup_range' _ _
  · exact List.nodup_nil

theorem axis_cover (s t k j : Nat) (hk : 0 < k) (hj : j < t - s) :
    (s + j) / k ∈ axisChunks s t k ∧
      max s ((s + j) / k * k) - s ≤ j ∧
      j < min t (((s + j) / k + 1) * k) - s := by
  have hd := axis_div_facts (s + j) k hk
  have hsucc : ((s + j) / k + 1) * k = (s + j) / k * k + k := by ring
  refine ⟨(mem_axisChunks_iff s t k _ hk).mpr ⟨by omega, Nat.div_le_div_right (by omega), ?_⟩,
    by omega, by omega⟩
  rw [Nat.le_div_iff_mul_le hk]
  omega

theorem axis_unique (s t k j c : Nat) (hk : 0 < k)
    (hlo : max s (c * k) - s ≤ j) (hhi : j < min t ((c + 1) * k) - s) :
    (s + j) / k = c := by
  have hsucc : (c + 1) * k = c * k + k := by ring
  exact axis_div_unique _ _ _ hk (by omega) (by omega)

theorem axis_chunk_index (s t k j : Nat) (hk : 0 < k) (hj : j < t - s) :
    (j - (max s ((s + j) / k * k) - s)) + (max s ((s + j) / k * k) - (s + j) / k * k) =
        s + j - (s + j) / k * k ∧
      s + j - (s + j) / k * k < k ∧
      max s ((s + j) / k * k) - (s + j) / k * k ≤ s + j - (s + j) / k * k ∧
      s + j - (s + j) / k * k < min t (((s + j) / k + 1) * k) - (s + j) / k * k := by
  have hd := axis_div_facts (s + j) k hk
  have hsucc : ((s + j) / k + 1) * k = (s + j) / k * k + k := by ring
  exact ⟨by omega, by omega, by omega, by omega⟩

/-! Element access for the indexer constructions. -/

theorem selStarts_length (sel : Sel) : (selStarts sel).length = sel.length := by
  simp [selStarts]

theorem selStarts_getElem (sel : Sel) (i : Nat) (h1 : i < sel.length)
    (h : i < (selStarts sel).length) :
    (selStarts sel)[i] = sel[i].1 := by
  simp [selStarts]

theorem selShape_length (sel : Sel) : (selShape sel).length = sel.length := by
  simp [selShape]

theorem selShape_getElem (sel : Sel) (i : Nat) (h1 : i < sel.length)
    (h : i < (selShape sel).length) :
    (selShape sel)[i] = sel[i].2 - sel[i].1 := by
  simp [selShape]

theorem shiftIdx_length (starts idx : List Nat) :
    (shiftIdx starts idx).length = min idx.length starts.length := by
  simp [shiftIdx]

theorem shiftIdx_getElem (starts idx : List Nat) (i : Nat)
    (h1 : i < idx.length) (h2 : i < starts.length) (h : i < (shiftIdx starts idx).length) :
    (shiftIdx starts idx)[i] = idx[i] + starts[i] := by
  simp [shiftIdx]

theorem unshiftIdx_length (starts idx : List Nat) :
    (unshiftIdx starts idx).length = min idx.length starts.length := by
  simp [unshiftIdx]

theorem unshiftIdx_getElem (starts idx : List Nat) (i : Nat)
    (h1 : i < idx.length) (h2 : i < starts.length) (h : i < (unshiftIdx starts idx).length) :
    (unshiftIdx starts idx)[i] = idx[i] - starts[i] := by
  simp [unshiftIdx]

theorem tripleChunkSel_length (sel : Sel) (cs c : List Nat) :
    (tripleChunkSel sel cs c).length = min (min sel.length cs.length) c.length := by
  simp [tripleChunkSel, List.length_zipWith, List.length_zip]

theorem tripleChunkSel_getElem (sel : Sel) (cs co : List Nat) (i : Nat)
    (h1 : i < sel.length) (h2 : i < cs.length) (h3 : i < co.length)
    (h : i < (tripleChunkSel sel cs co).length) :
    (tripleChunkSel sel cs co)[i] =
      (max sel[i].1 (co[i] * cs[i]) - co[i] * cs[i],
        min sel[i].2 ((co[i] + 1) * cs[i]) - co[i] * cs[i]) := by
  simp [tripleChunkSel, List.getElem_zipWith, List.getElem_zip]

theorem tripleOutSel_length (sel : Sel) (cs c : List Nat) :
    (tripleOutSel sel cs c).length = min (min sel.length cs.length) c.length := by
  simp [tripleOutSel, List.length_zipWith, List.length_zip]

theorem tripleOutSel_getElem (sel : Sel) (cs co : List Nat) (i : Nat)
    (h1 : i < sel.length) (h2 : i < cs.length) (h3 : i < co.length)
    (h : i < (tripleOutSel sel cs co).length) :
    (tripleOutSel sel cs co)[i] =
      (max sel[i].1 (co[i] * cs[i]) - sel[i].1,
        min sel[i].2 ((co[i] + 1) * cs[i]) - sel[i].1) := by
  simp [tripleOutSel, List.getElem_zipWith, List.getElem_zip]

theorem tripleChunkSel_fst (sel : Sel) (cs co : List Nat) (i : Nat)
    (h1 : i < sel.length) (h2 : i < cs.length) (h3 : i < co.length)
    (h : i < (tripleChunkSel sel cs co).length) :
    (tripleChunkSel sel cs co)[i].1 = max sel[i].1 (co[i] * cs[i]) - co[i] * cs[i] := by
  rw [tripleChunkSel_getElem sel cs co i h1 h2 h3 h]

theorem tripleChunkSel_snd (sel : Sel) (cs co : List Nat) (i : Nat)
    (h1 : i < sel.length) (h2 : i < cs.length) (h3 : i < co.length)
    (h : i < (tripleChunkSel sel cs co).length) :
    (tripleChunkSel sel cs co)[i].2 = min sel[i].2 ((co[i] + 1) * cs[i]) - co[i] * cs[i] := by
  rw [tripleChunkSel_getElem sel cs co i h1 h2 h3 h]

theorem tripleOutSel_fst (sel : Sel) (cs co : List Nat) (i : Nat)
    (h1 : i < sel.length) (h2 : i < cs.length) (h3 : i < co.length)
    (h : i < (tripleOutSel sel cs co).length) :
    (tripleOutSel sel cs co)[i].1 = max sel[i].1 (co[i] * cs[i]) - sel[i].1 := by
  rw [tripleOutSel_getElem sel cs co i h1 h2 h3 h]

theorem tripleOutSel_snd (sel : Sel) (cs co : List Nat) (i : Nat)
    (h1 : i < sel.length) (h2 : i < cs.length) (h3 : i < co.length)
    (h : i < (tripleOutSel sel cs co).length) :
    (tripleOutSel sel cs co)[i].2 = min sel[i].2 ((co[i] + 1) * cs[i]) - sel[i].1 := by
  rw [tripleOutSel_getElem sel cs co i h1 h2 h3 h]

theorem coordOf_length (sel : Sel) (cs idx : List Nat) :
    (coordOf sel cs idx).length = min (min sel.length cs.length) idx.length := by
  simp [coordOf, List.length_zipWith, List.length_zip]

theorem coordOf_getElem (sel : Sel) (cs idx : List Nat) (i : Nat)
    (h1 : i < sel.length) (h2 : i < cs.length) (h3 : i < idx.length)
    (h : i < (coordOf sel cs idx).length) :
    (coordOf sel cs idx)[i] = (sel[i].1 + idx[i]) / cs[i] := by
  simp [coordOf, List.getElem_zipWith, List.getElem_zip]

/-! Injectivity of the chunk-key encoding. -/

theorem digitVal_digitChar (d : Nat) (h : d < 10) : digitVal (digitChar d) = d := by
  interval_cases d <;> decide

theorem digitChar_ne_slash (d : Nat) (h : d < 10) : digitChar d ≠ '/' := by
  interval_cases d <;> decide

theorem natChars_ne_nil (n : Nat) : natChars n ≠ [] := by
  unfold natChars
  split_ifs with h
  · simp
  · have hd : Nat.digits 10 n ≠ [] := Nat.digits_ne_nil_iff_ne_zero.mpr h
    simp [hd]

theorem natChars_no_slash (n : Nat) : ∀ ch ∈ natChars n, ch ≠ '/' := by
  unfold natChars
  split_ifs with h
  · intro ch hch
    rw [List.mem_singleton] at hch
    subst hch
    decide
  · intro ch hch
    rw [List.mem_map] at hch
    obtain ⟨d, hd, rfl⟩ := hch
    rw [List.mem_reverse] at hd
    exact digitChar_ne_slash d (Nat.digits_lt_base (by norm_num) hd)

theorem natChars_decode (n : Nat) :
    Nat.ofDigits 10 ((natChars n).reverse.map digitVal) = n := by
  unfold natChars
  split_ifs with h
  · subst h
    rfl
  · have hmapped : ∀ l : List Nat, (∀ d ∈ l, d < 10) →
        List.map (digitVal ∘ digitChar) l = l := by
      intro l
      induction l with
      | nil => intro _; rfl
      | cons d l ih =>
        intro hl
        rw [List.map_cons, ih (fun x hx => hl x (by simp [hx]))]
        have hdv : (digitVal ∘ digitChar) d = d := digitVal_digitChar d (hl d (by simp))
        rw [hdv]
    rw [show (List.map digitChar (Nat.digits 10 n).reverse).reverse
        = List.map digitChar (Nat.digits 10 n) from by
      rw [← List.map_reverse, List.reverse_reverse]]
    rw [List.map_map]
    rw [hmapped _ (fun d hd => Nat.digits_lt_base (by norm_num) hd)]
    exact Nat.ofDigits_digits 10 n

theorem natChars_inj (m n : Nat) (h : natChars m = natChars n) : m = n := by
  have hm := natChars_decode m
  have hn := natChars_decode n
  rw [h] at hm
  omega

theorem sepFree_append_inj (sep : Char) :
    ∀ (x y u v : List Char), (∀ ch ∈ x, ch ≠ sep) → (∀ ch ∈ y, ch ≠ sep) →
      x ++ sep :: u = y ++ sep :: v → x = y ∧ u = v := by
  intro x
  induction x with
  | nil =>
    intro y u v _ hy h
    cases y with
    | nil => simpa using h
    | cons b y' =>
      simp only [List.nil_append, List.cons_append, List.cons.injEq] at h
      exact absurd h.1.symm (hy b (by simp))
  | cons a x' ih =>
    intro y u v hx hy h
    cases y with
    | nil =>
      simp only [List.nil_append, List.cons_append, List.cons.injEq] at h
      exact absurd h.1 (hx a (by simp))
    | cons b y' =>
      simp only [List.cons_append, List.cons.injEq] at h
      obtain ⟨rfl, h2⟩ := h
      obtain ⟨hxy, huv⟩ := ih y' u v (fun ch hch => hx ch (by simp [hch]))
        (fun ch hch => hy ch (by simp [hch])) h2
      exact ⟨by rw [hxy], huv⟩

theorem sepJoin_inj (sep : Char) :
    ∀ (ps qs : List (List Char)), ps.length = qs.length →
      (∀ p ∈ ps, p ≠ [] ∧ ∀ ch ∈ p, ch ≠ sep) →
      (∀ q ∈ qs, q ≠ [] ∧ ∀ ch ∈ q, ch ≠ sep) →
      sepJoin sep ps = sepJoin sep qs → ps = qs := by
  intro ps
  induction ps with
  | nil =>
    intro qs hlen _ _ _
    cases qs with
    | nil => rfl
    | cons q qs' => simp at hlen
  | cons p ps' ih =>
    intro qs hlen hp hq h
    cases qs with
    | nil => simp at hlen
    | cons q qs' =>
      cases ps' with
      | nil =>
        cases qs' with
        | nil =>
          have : p = q := h
          rw [this]
        | cons q2 qs'' => simp at hlen
      | cons p2 ps'' =>
        cases qs' with
        | nil => simp at hlen
        | cons q2 qs'' =>
          simp only [sepJoin] at h
          obtain ⟨hpq, hrest⟩ := sepFree_append_inj sep p q _ _ (hp p (by simp)).2
            (hq q (by simp)).2 h
          have hih := ih (q2 :: qs'') (by simpa using hlen)
            (fun r hr => hp r (by simp [hr]))
            (fun r hr => hq r (by simp [hr])) hrest
          rw [hpq, hih]

theorem encodeChunkKey_inj (co1 co2 : List Nat) (hlen : co1.length = co2.length)
    (h : encodeChunkKey co1 = encodeChunkKey co2) : co1 = co2 := by
  unfold encodeChunkKey at h
  injection h with hdata
  injection hdata with _ hjoin
  have hmaps := sepJoin_inj '/' (co1.map natChars) (co2.map natChars) (by simp [hlen])
    (fun p hp => by
      rw [List.mem_map] at hp
      obtain ⟨n, _, rfl⟩ := hp
      exact ⟨natChars_ne_nil n, natChars_no_slash n⟩)
    (fun q hqm => by
      rw [List.mem_map] at hqm
      obtain ⟨n, _, rfl⟩ := hqm
      exact ⟨natChars_ne_nil n, natChars_no_slash n⟩)
    hjoin
  clear hjoin hlen
  revert co2
  induction co1 with
  | nil =>
    intro co2 hmaps
    cases co2 with
    | nil => rfl
    | cons b l2 => simp at hmaps
  | cons a l1 ih =>
    intro co2 hmaps
    cases co2 with
    | nil => simp at hmaps
    | cons b l2 =>
      simp only [List.map_cons, List.cons.injEq] at hmaps
      rw [natChars_inj a b hmaps.1, ih l2 hmaps.2]

theorem encodeChunkKey_ne_zarrJson (co : List Nat) : encodeChunkKey co ≠ zarrJsonKey := by
  unfold encodeChunkKey zarrJsonKey
  intro h
  have hdata : 'c' :: sepJoin '/' (co.map natChars)
      = ['z', 'a', 'r', 'r', '.', 'j', 's', 'o', 'n'] := congrArg String.data h
  injection hdata with h1 _
  exact absurd h1 (by decide)

/-! Coverage and uniqueness of the indexer decomposition. -/

theorem cartProd_nodup (ls : List (List Nat)) (h : ∀ l ∈ ls, l.Nodup) :
    (cartProd ls).Nodup := by
  induction ls with
  | nil => simp [cartProd]
  | cons l ls ih =>
    rw [cartProd, List.nodup_flatMap]
    refine ⟨fun x _ =>
      (ih (fun a ha => h a (by simp [ha]))).map (fun a b hab => by injection hab), ?_⟩
    have hl : l.Nodup := h l (by simp)
    refine hl.imp ?_
    intro a b hab z hza hzb
    rw [List.mem_map] at hza hzb
    obtain ⟨y1, _, hz1⟩ := hza
    obtain ⟨y2, _, hz2⟩ := hzb
    apply hab
    rw [← hz1] at hz2
    injection hz2 with hh _
    exact hh.symm

theorem mem_indexerCoords_iff (sel : Sel) (cs co : List Nat) (hrank : cs.length = sel.length) :
    co ∈ indexerCoords sel cs ↔ co.length = sel.length ∧
      ∀ i (h1 : i < co.length) (h2 : i < sel.length) (h3 : i < cs.length),
        co[i] ∈ axisChunks sel[i].1 sel[i].2 cs[i] := by
  unfold indexerCoords
  rw [cartProd_mem_iff]
  have hlen : (List.zipWith (fun (p : Nat × Nat) k => axisChunks p.1 p.2 k) sel cs).length
      = sel.length := by
    rw [List.length_zipWith]
    omega
  constructor
  · rintro ⟨hl, h⟩
    rw [hlen] at hl
    refine ⟨hl, fun i h1 h2 h3 => ?_⟩
    have := h i h1 (by rw [hlen]; omega)
    simpa [List.getElem_zipWith] using this
  · rintro ⟨hl, h⟩
    refine ⟨by rw [hlen]; exact hl, fun i h1 h2 => ?_⟩
    rw [hlen] at h2
    simpa [List.getElem_zipWith] using h i h1 h2 (by omega)

theorem indexerCoords_nodup (sel : Sel) (cs : List Nat) : (indexerCoords sel cs).Nodup := by
  apply cartProd_nodup
  intro l hl
  obtain ⟨i, hi, he⟩ := List.mem_iff_getElem.mp hl
  rw [List.getElem_zipWith] at he
  rw [← he]
  exact axisChunks_nodup _ _ _

theorem coordOf_covers (sel : Sel) (cs idx : List Nat)
    (hrank : cs.length = sel.length) (hidx : idx.length = sel.length)
    (hcs : ∀ i (h : i < cs.length), 0 < cs[i])
    (hbox : ∀ i (h1 : i < idx.length) (h2 : i < sel.length), idx[i] < sel[i].2 - sel[i].1) :
    (coordOf sel cs idx).length = sel.length ∧
      coordOf sel cs idx ∈ indexerCoords sel cs ∧
      inSelB (tripleOutSel sel cs (coordOf sel cs idx)) idx = true := by
  have hclen : (coordOf sel cs idx).length = sel.length := by
    rw [coordOf_length]
    omega
  refine ⟨hclen, ?_, ?_⟩
  · rw [mem_indexerCoords_iff sel cs _ hrank]
    refine ⟨hclen, fun i h1 h2 h3 => ?_⟩
    rw [coordOf_getElem sel cs idx i h2 h3 (by omega) h1]
    exact (axis_cover sel[i].1 sel[i].2 cs[i] idx[i] (hcs i h3) (hbox i (by omega) h2)).1
  · rw [inSelB_iff]
    have hosel : (tripleOutSel sel cs (coordOf sel cs idx)).length = sel.length := by
      rw [tripleOutSel_length]
      omega
    refine ⟨by omega, fun i h1 h2 => ?_⟩
    rw [hosel] at h2
    rw [tripleOutSel_getElem sel cs _ i h2 (by omega) (by omega) (by rw [hosel]; omega)]
    rw [coordOf_getElem sel cs idx i h2 (by omega) (by omega) (by omega)]
    have := axis_cover sel[i].1 sel[i].2 cs[i] idx[i] (hcs i (by omega)) (hbox i h1 h2)
    exact ⟨this.2.1, this.2.2⟩

theorem coordOf_unique (sel : Sel) (cs co idx : List Nat)
    (hrank : cs.length = sel.length) (hidx : idx.length = sel.length)
    (hco : co.length = sel.length)
    (hcs : ∀ i (h : i < cs.length), 0 < cs[i])
    (hin : inSelB (tripleOutSel sel cs co) idx = true) :
    co = coordOf sel cs idx := by
  have hclen : (coordOf sel cs idx).length = sel.length := by
    rw [coordOf_length]
    omega
  apply List.ext_getElem (by omega)
  intro i hi1 hi2
  rw [coordOf_getElem sel cs idx i (by omega) (by omega) (by omega) hi2]
  rw [inSelB_iff] at hin
  obtain ⟨_, hall⟩ := hin
  have h2 : i < (tripleOutSel sel cs co).length := by
    rw [tripleOutSel_length]
    omega
  have hb := hall i (by omega) h2
  rw [tripleOutSel_getElem sel cs co i (by omega) (by omega) (by omega) h2] at hb
  exact (axis_unique sel[i].1 sel[i].2 cs[i] idx[i] co[i] (hcs i (by omega)) hb.1 hb.2).symm

/-! Evaluation of the per-chunk read and write folds. -/

theorem readChunk_preserve (cs : List Nat) (fill : Int) (st : Store) (out : Arr) (t : Triple)
    (idx : List Nat) (h : inSelB t.outSel idx = false) :
    readChunk cs fill st out t idx = out idx := by
  unfold readChunk
  cases storeGet st (encodeChunkKey t.chunkCoord) <;> simp [setRegion, h]

theorem foldl_readChunk_preserve (cs : List Nat) (fill : Int) (st : Store) (ts : List Triple)
    (out : Arr) (idx : List Nat) (h : ∀ t ∈ ts, inSelB t.outSel idx = false) :
    (ts.foldl (readChunk cs fill st) out) idx = out idx := by
  induction ts generalizing out with
  | nil => rfl
  | cons t ts ih =>
    rw [List.foldl_cons, ih _ (fun u hu => h u (by simp [hu]))]
    exact readChunk_preserve cs fill st out t idx (h t (by simp))

theorem readChunk_eval_none (cs : List Nat) (fill : Int) (st : Store) (out : Arr) (t : Triple)
    (idx : List Nat) (hin : inSelB t.outSel idx = true)
    (hget : storeGet st (encodeChunkKey t.chunkCoord) = none) :
    readChunk cs fill st out t idx = fill := by
  unfold readChunk
  rw [hget]
  simp [setRegion, hin]

theorem readChunk_eval_some (cs : List Nat) (fill : Int) (st : Store) (out : Arr) (t : Triple)
    (idx : List Nat) (bytes : List Int) (hin : inSelB t.outSel idx = true)
    (hget : storeGet st (encodeChunkKey t.chunkCoord) = some bytes) :
    readChunk cs fill st out t idx =
      decodeChunkBytes cs bytes
        (shiftIdx (selStarts t.chunkSel) (unshiftIdx (selStarts t.outSel) idx)) := by
  unfold readChunk
  rw [hget]
  simp [setRegion, hin]

theorem writeChunkToStore_get_own (cs : List Nat) (fill : Int) (st : Store) (key : String)
    (w : Arr) :
    storeGet (writeChunkToStore cs fill st key w) key =
      if (allIndices cs).all (fun p => w p == fill) then none
      else some (encodeChunkBytes cs w) := by
  unfold writeChunkToStore
  split_ifs
  · exact storeGet_storeDelete_same st key
  · exact storeGet_storeSet_same st key _

theorem writeChunkToStore_get_other (cs : List Nat) (fill : Int) (st : Store) (key : String)
    (w : Arr) (k : String) (h : k ≠ key) :
    storeGet (writeChunkToStore cs fill st key w) k = storeGet st k := by
  unfold writeChunkToStore
  split_ifs
  · exact storeGet_storeDelete_ne st key k h
  · exact storeGet_storeSet_ne st key k _ h

theorem writeChunk_get_other (cs : List Nat) (fill : Int) (v : Arr) (st : Store) (t : Triple)
    (k : String) (h : k ≠ encodeChunkKey t.chunkCoord) :
    storeGet (writeChunk cs fill v st t) k = storeGet st k := by
  unfold writeChunk
  split_ifs
  · exact writeChunkToStore_get_other _ _ _ _ _ _ h
  · exact writeChunkToStore_get_other _ _ _ _ _ _ h

theorem foldl_writeChunk_get_other (cs : List Nat) (fill : Int) (v : Arr) (ts : List Triple)
    (st : Store) (k : String) (h : ∀ t ∈ ts, k ≠ encodeChunkKey t.chunkCoord) :
    storeGet (ts.foldl (writeChunk cs fill v) st) k = storeGet st k := by
  induction ts generalizing st with
  | nil => rfl
  | cons t ts ih =>
    rw [List.foldl_cons, ih _ (fun u hu => h u (by simp [hu]))]
    exact writeChunk_get_other cs fill v st t k (h t (by simp))

theorem writeChunk_get_own_congr (cs : List Nat) (fill : Int) (v : Arr) (st st' : Store)
    (t : Triple)
    (h : storeGet st (encodeChunkKey t.chunkCoord) = storeGet st' (encodeChunkKey t.chunkCoord)) :
    storeGet (writeChunk cs fill v st t) (encodeChunkKey t.chunkCoord) =
      storeGet (writeChunk cs fill v st' t) (encodeChunkKey t.chunkCoord) := by
  unfold writeChunk
  split_ifs
  · rw [writeChunkToStore_get_own, writeChunkToStore_get_own]
  · rw [h, writeChunkToStore_get_own, writeChunkToStore_get_own]

theorem setAsync_get_at_coord (cs : List Nat) (fill : Int) (st : Store) (sel : Sel) (v : Arr)
    (co : List Nat) (hmem : co ∈ indexerCoords sel cs) :
    storeGet (setAsync cs fill st sel v) (encodeChunkKey co) =
      storeGet (writeChunk cs fill v st (mkTriple sel cs co)) (encodeChunkKey co) := by
  unfold setAsync indexerTriples
  obtain ⟨l1, l2, hsplit⟩ := List.append_of_mem hmem
  have hnd := indexerCoords_nodup sel cs
  have hcolen : co.length = min sel.length cs.length := by
    have := (cartProd_mem_iff _ co).mp hmem
    rw [this.1, List.length_zipWith]
  have hlenmem : ∀ c2, c2 ∈ indexerCoords sel cs → c2.length = min sel.length cs.length := by
    intro c2 hc2
    have := (cartProd_mem_iff _ c2).mp hc2
    rw [this.1, List.length_zipWith]
  rw [hsplit] at hnd
  have hno1 : co ∉ l1 := by
    rw [List.nodup_append] at hnd
    intro hmem1
    exact hnd.2.2 hmem1 (by simp)
  have hno2 : co ∉ l2 := by
    rw [List.nodup_append, List.nodup_cons] at hnd
    exact hnd.2.1.1
  have hkey : ∀ c2 ∈ l1 ++ co :: l2, c2 ≠ co → encodeChunkKey co ≠ encodeChunkKey c2 := by
    intro c2 hc2 hne hcontra
    refine hne ?_
    refine (encodeChunkKey_inj c2 co ?_ hcontra.symm)
    rw [hlenmem c2 (hsplit ▸ hc2), hcolen]
  rw [hsplit, List.map_append, List.map_cons, List.foldl_append, List.foldl_cons]
  rw [foldl_writeChunk_get_other cs fill v (l2.map (mkTriple sel cs)) _ _ ?_]
  · show storeGet (writeChunk cs fill v _ (mkTriple sel cs co)) (encodeChunkKey co) = _
    apply writeChunk_get_own_congr
    show storeGet ((l1.map (mkTriple sel cs)).foldl (writeChunk cs fill v) st)
        (encodeChunkKey co) = _
    exact foldl_writeChunk_get_other cs fill v (l1.map (mkTriple sel cs)) st _
      (fun u hu => by
        rw [List.mem_map] at hu
        obtain ⟨c2, hc2, rfl⟩ := hu
        exact hkey c2 (by simp [hc2]) (fun hcc => hno1 (hcc ▸ hc2)))
  · intro u hu
    rw [List.mem_map] at hu
    obtain ⟨c2, hc2, rfl⟩ := hu
    exact hkey c2 (by simp [hc2]) (fun hcc => hno2 (hcc ▸ hc2))

set_option maxHeartbeats 8000000 in
theorem write_read_value (cs : List Nat) (fill : Int) (sel : Sel) (v : Arr) (st : Store)
    (idx : List Nat)
    (hrank : cs.length = sel.length) (hidx : idx.length = sel.length)
    (hcs : ∀ i (h : i < cs.length), 0 < cs[i])
    (hbox : ∀ i (h1 : i < idx.length) (h2 : i < sel.length), idx[i] < sel[i].2 - sel[i].1) :
    (storeGet (writeChunk cs fill v st (mkTriple sel cs (coordOf sel cs idx)))
        (encodeChunkKey (coordOf sel cs idx)) = none → v idx = fill) ∧
      (∀ bytes, storeGet (writeChunk cs fill v st (mkTriple sel cs (coordOf sel cs idx)))
          (encodeChunkKey (coordOf sel cs idx)) = some bytes →
        decodeChunkBytes cs bytes
          (shiftIdx (selStarts (tripleChunkSel sel cs (coordOf sel cs idx)))
            (unshiftIdx (selStarts (tripleOutSel sel cs (coordOf sel cs idx))) idx)) = v idx) := by
  have hclen : (coordOf sel cs idx).length = sel.length := by
    rw [coordOf_length]
    omega
  have hcoget : ∀ i (h1 : i < sel.length) (h2 : i < (coordOf sel cs idx).length),
      (coordOf sel cs idx)[i] = (sel[i].1 + idx[i]) / cs[i] :=
    fun i h1 h2 => coordOf_getElem sel cs idx i h1 (by omega) (by omega) h2
  generalize hCO : coordOf sel cs idx = co at hclen hcoget ⊢
  have hoslen : (selStarts (tripleOutSel sel cs co)).length = sel.length := by
    rw [selStarts_length, tripleOutSel_length]
    omega
  have hcslen : (selStarts (tripleChunkSel sel cs co)).length = sel.length := by
    rw [selStarts_length, tripleChunkSel_length]
    omega
  have hulen : (unshiftIdx (selStarts (tripleOutSel sel cs co)) idx).length = sel.length := by
    rw [unshiftIdx_length, hoslen]
    omega
  have hqlen : (shiftIdx (selStarts (tripleChunkSel sel cs co))
      (unshiftIdx (selStarts (tripleOutSel sel cs co)) idx)).length = sel.length := by
    rw [shiftIdx_length, hulen, hcslen]
    omega
  have hdco : ∀ i (h1 : i < sel.length) (h2 : i < co.length) (h3 : i < cs.length)
      (h4 : i < idx.length),
      co[i] * cs[i] ≤ sel[i].1 + idx[i] ∧
        sel[i].1 + idx[i] < co[i] * cs[i] + cs[i] := by
    intro i h1 h2 h3 h4
    rw [hcoget i h1 h2]
    exact axis_div_facts (sel[i].1 + idx[i]) cs[i] (hcs i h3)
  have hqget : ∀ i (h1 : i < sel.length)
      (hq2 : i < (shiftIdx (selStarts (tripleChunkSel sel cs co))
        (unshiftIdx (selStarts (tripleOutSel sel cs co)) idx)).length),
      (shiftIdx (selStarts (tripleChunkSel sel cs co))
        (unshiftIdx (selStarts (tripleOutSel sel cs co)) idx))[i]
        = sel[i].1 + idx[i] - co[i] * cs[i] := by
    intro i h1 hq2
    rw [shiftIdx_getElem (selStarts (tripleChunkSel sel cs co))
      (unshiftIdx (selStarts (tripleOutSel sel cs co)) idx) i (by omega) (by omega) hq2]
    rw [unshiftIdx_getElem (selStarts (tripleOutSel sel cs co)) idx i (by omega) (by omega)
      (by omega)]
    rw [selStarts_getElem (tripleOutSel sel cs co) i (by rw [tripleOutSel_length]; omega)
      (by omega)]
    rw [selStarts_getElem (tripleChunkSel sel cs co) i (by rw [tripleChunkSel_length]; omega)
      (by omega)]
    rw [tripleOutSel_fst sel cs co i h1 (by omega) (by omega)
      (by rw [tripleOutSel_length]; omega)]
    rw [tripleChunkSel_fst sel cs co i h1 (by omega) (by omega)
      (by rw [tripleChunkSel_length]; omega)]
    have hd := hdco i h1 (by omega) (by omega) (by omega)
    have hb := hbox i (by omega) h1
    omega
  generalize hQ : shiftIdx (selStarts (tripleChunkSel sel cs co))
      (unshiftIdx (selStarts (tripleOutSel sel cs co)) idx) = q at hqlen hqget ⊢
  have hshape : inShapeB cs q = true := by
    rw [inShapeB_iff]
    refine ⟨by omega, fun i h1 h2 => ?_⟩
    rw [hqget i (by omega) h1]
    have hd := hdco i (by omega) (by omega) (by omega) (by omega)
    omega
  have hinq : inSelB (tripleChunkSel sel cs co) q = true := by
    rw [inSelB_iff]
    refine ⟨by rw [tripleChunkSel_length]; omega, fun i h1 h2 => ?_⟩
    rw [hqget i (by omega) h1]
    rw [tripleChunkSel_fst sel cs co i (by omega) (by omega) (by omega) h2]
    rw [tripleChunkSel_snd sel cs co i (by omega) (by omega) (by omega) h2]
    have hd := hdco i (by omega) (by omega) (by omega) (by omega)
    have hb := hbox i (by omega) (by omega)
    have hsucc : (co[i] + 1) * cs[i] = co[i] * cs[i] + cs[i] := by ring
    constructor
    · omega
    · omega
  have hpartial_eq : shiftIdx (selStarts (tripleOutSel sel cs co))
      (unshiftIdx (selStarts (tripleChunkSel sel cs co)) q) = idx := by
    apply List.ext_getElem
    · rw [shiftIdx_length, unshiftIdx_length, hoslen, hcslen]
      omega
    · intro i hi1 hi2
      rw [shiftIdx_getElem (selStarts (tripleOutSel sel cs co))
        (unshiftIdx (selStarts (tripleChunkSel sel cs co)) q) i
        (by rw [unshiftIdx_length, hcslen]; omega) (by omega)
        (by rw [shiftIdx_length, unshiftIdx_length, hoslen, hcslen]; omega)]
      rw [unshiftIdx_getElem (selStarts (tripleChunkSel sel cs co)) q i (by omega) (by omega)
        (by rw [unshiftIdx_length, hcslen]; omega)]
      rw [hqget i (by omega) (by omega)]
      rw [selStarts_getElem (tripleOutSel sel cs co) i (by rw [tripleOutSel_length]; omega)
        (by omega)]
      rw [selStarts_getElem (tripleChunkSel sel cs co) i (by rw [tripleChunkSel_length]; omega)
        (by omega)]
      rw [tripleOutSel_fst sel cs co i (by omega) (by omega) (by omega)
        (by rw [tripleOutSel_length]; omega)]
      rw [tripleChunkSel_fst sel cs co i (by omega) (by omega) (by omega)
        (by rw [tripleChunkSel_length]; omega)]
      have hd := hdco i (by omega) (by omega) (by omega) (by omega)
      have hb := hbox i (by omega) (by omega)
      omega
  have hchar : (storeGet (writeChunk cs fill v st (mkTriple sel cs co)) (encodeChunkKey co)
        = none ∧ v idx = fill) ∨
      (∃ w : Arr, w q = v idx ∧
        storeGet (writeChunk cs fill v st (mkTriple sel cs co)) (encodeChunkKey co)
          = some (encodeChunkBytes cs w)) := by
    unfold writeChunk
    simp only [mkTriple]
    by_cases hts : isTotalSlice (tripleChunkSel sel cs co) cs = true
    · rw [if_pos hts]
      have htsl := (isTotalSlice_iff _ _).mp hts
      have htot_eq : shiftIdx (selStarts (tripleOutSel sel cs co)) q = idx := by
        apply List.ext_getElem
        · rw [shiftIdx_length, hoslen]
          omega
        · intro i hi1 hi2
          rw [shiftIdx_getElem (selStarts (tripleOutSel sel cs co)) q i (by omega) (by omega)
            hi1]
          rw [hqget i (by omega) (by omega)]
          rw [selStarts_getElem (tripleOutSel sel cs co) i
            (by rw [tripleOutSel_length]; omega) (by omega)]
          rw [tripleOutSel_fst sel cs co i (by omega) (by omega) (by omega)
            (by rw [tripleOutSel_length]; omega)]
          have hts0 := (htsl.2 i (by rw [tripleChunkSel_length]; omega) (by omega)).1
          rw [tripleChunkSel_fst sel cs co i (by omega) (by omega) (by omega)
            (by rw [tripleChunkSel_length]; omega)] at hts0
          have hd := hdco i (by omega) (by omega) (by omega) (by omega)
          have hb := hbox i (by omega) (by omega)
          omega
      rw [writeChunkToStore_get_own]
      split_ifs with hall
      · left
        refine ⟨rfl, ?_⟩
        have hmem : q ∈ allIndices cs := (mem_allIndices_iff _ _).mpr hshape
        have hwf := List.all_eq_true.mp hall _ hmem
        rw [beq_iff_eq] at hwf
        show v idx = fill
        rw [← show v (shiftIdx (selStarts (tripleOutSel sel cs co)) q) = v idx from by
          rw [htot_eq]]
        exact hwf
      · right
        refine ⟨_, ?_, rfl⟩
        show v (shiftIdx (selStarts (tripleOutSel sel cs co)) q) = v idx
        rw [htot_eq]
    · rw [if_neg hts]
      have hweq : (setRegion
          (match storeGet st (encodeChunkKey co) with
            | none => fun _ => fill
            | some bytes => decodeChunkBytes cs bytes)
          (tripleChunkSel sel cs co)
          (fun p => v (shiftIdx (selStarts (tripleOutSel sel cs co)) p))) q = v idx := by
        unfold setRegion
        rw [if_pos hinq]
        show v (shiftIdx (selStarts (tripleOutSel sel cs co))
          (unshiftIdx (selStarts (tripleChunkSel sel cs co)) q)) = v idx
        rw [hpartial_eq]
      rw [writeChunkToStore_get_own]
      split_ifs with hall
      · left
        refine ⟨rfl, ?_⟩
        have hmem : q ∈ allIndices cs := (mem_allIndices_iff _ _).mpr hshape
        have hwf := List.all_eq_true.mp hall _ hmem
        rw [beq_iff_eq] at hwf
        rw [← hweq]
        exact hwf
      · right
        exact ⟨_, hweq, rfl⟩
  constructor
  · intro hnone
    rcases hchar with ⟨_, hfill⟩ | ⟨w, _, hsome⟩
    · exact hfill
    · rw [hsome] at hnone
      cases hnone
  · intro bytes hsome
    rcases hchar with ⟨hn, _⟩ | ⟨w, hwq, hsw⟩
    · rw [hn] at hsome
      cases hsome
    · rw [hsw] at hsome
      injection hsome with hbytes
      rw [← hbytes]
      rw [decode_encode cs w _ hshape]
      exact hwq

/-- Witness for C4 (amended) at the concrete float32-to-int32 input. -/
theorem set_value_normalization_witness :
    normalizeValue .int32 [1] (.arr cexFloatArr) = some (.arr (astype cexFloatArr .int32)) ∧
      (astype cexFloatArr .int32).dtype = .int32 ∧
      (astype cexFloatArr .int32).shape = [1] ∧
      groupBytes (DataType.int32.itemsize) (astype cexFloatArr .int32).bytes =
        (groupBytes (DataType.float32.itemsize) cexFloatArr.bytes).map
          (fun eb => natToLeBytes (DataType.int32.itemsize)
            (castValToBits .int32 (dtypeValOfBits .float32 (leBytesToNat eb)))) :=
  (set_value_normalization .int32 [1] cexFloatArr).2.2 (by decide) (by decide)


/-! Evaluation of the read fold at a covered index. -/

theorem getAsync_eval (cs : List Nat) (fill : Int) (st : Store) (sel : Sel) (idx : List Nat)
    (hrank : cs.length = sel.length) (hidx : idx.length = sel.length)
    (hcs : ∀ i (h : i < cs.length), 0 < cs[i])
    (hbox : ∀ i (h1 : i < idx.length) (h2 : i < sel.length), idx[i] < sel[i].2 - sel[i].1) :
    (storeGet st (encodeChunkKey (coordOf sel cs idx)) = none →
      getAsync cs fill st sel idx = fill) ∧
    (∀ bytes, storeGet st (encodeChunkKey (coordOf sel cs idx)) = some bytes →
      getAsync cs fill st sel idx =
        decodeChunkBytes cs bytes
          (shiftIdx (selStarts (tripleChunkSel sel cs (coordOf sel cs idx)))
            (unshiftIdx (selStarts (tripleOutSel sel cs (coordOf sel cs idx))) idx))) := by
  obtain ⟨hclen, hmem, hinsel⟩ := coordOf_covers sel cs idx hrank hidx hcs hbox
  have hlenmem : ∀ c2 ∈ indexerCoords sel cs, c2.length = sel.length := by
    intro c2 hc2
    have := (cartProd_mem_iff _ c2).mp hc2
    rw [this.1, List.length_zipWith]
    omega
  have hother : ∀ c2 ∈ indexerCoords sel cs, c2 ≠ coordOf sel cs idx →
      inSelB (tripleOutSel sel cs c2) idx = false := by
    intro c2 hc2 hne
    cases hb : inSelB (tripleOutSel sel cs c2) idx with
    | false => rfl
    | true =>
      exact absurd (coordOf_unique sel cs c2 idx hrank hidx (hlenmem c2 hc2) hcs hb) hne
  obtain ⟨l1, l2, hsplit⟩ := List.append_of_mem hmem
  have hnd := indexerCoords_nodup sel cs
  rw [hsplit] at hnd
  rw [List.nodup_append, List.nodup_cons] at hnd
  have heval : ∀ out : Arr,
      ((l1 ++ coordOf sel cs idx :: l2).map (mkTriple sel cs)).foldl
          (readChunk cs fill st) out idx =
        readChunk cs fill st (((l1.map (mkTriple sel cs))).foldl (readChunk cs fill st) out)
          (mkTriple sel cs (coordOf sel cs idx)) idx := by
    intro out
    rw [List.map_append, List.map_cons, List.foldl_append, List.foldl_cons]
    apply foldl_readChunk_preserve
    intro t ht
    rw [List.mem_map] at ht
    obtain ⟨c2, hc2, rfl⟩ := ht
    have hne : c2 ≠ coordOf sel cs idx := fun hcc => hnd.2.1.1 (hcc ▸ hc2)
    exact hother c2 (by rw [hsplit]; simp [hc2]) hne
  constructor
  · intro hnone
    unfold getAsync indexerTriples
    rw [hsplit, heval]
    exact readChunk_eval_none cs fill st _ (mkTriple sel cs (coordOf sel cs idx)) idx
      hinsel hnone
  · intro bytes hsome
    unfold getAsync indexerTriples
    rw [hsplit, heval]
    exact readChunk_eval_some cs fill st _ (mkTriple sel cs (coordOf sel cs idx)) idx bytes
      hinsel hsome

/-- C1: for every array, valid selection, and value of the selection's shape,
writing the value through the selection and reading the selection back
returns the value at every in-bounds index (the non-sharding codec path,
with the indexer, chunk keys, and codec modelled from the spec). -/
theorem write_read_roundtrip (cs : List Nat) (fill : Int) (st : Store) (sel : Sel) (v : Arr)
    (idx : List Nat)
    (hrank : cs.length = sel.length) (hidx : idx.length = sel.length)
    (hcs : ∀ i (h : i < cs.length), 0 < cs[i])
    (hbox : ∀ i (h1 : i < idx.length) (h2 : i < sel.length), idx[i] < sel[i].2 - sel[i].1) :
    getAsync cs fill (setAsync cs fill st sel v) sel idx = v idx := by
  have hmem : coordOf sel cs idx ∈ indexerCoords sel cs :=
    (coordOf_covers sel cs idx hrank hidx hcs hbox).2.1
  have hset := setAsync_get_at_coord cs fill st sel v (coordOf sel cs idx) hmem
  have hval := write_read_value cs fill sel v st idx hrank hidx hcs hbox
  have hread := getAsync_eval cs fill (setAsync cs fill st sel v) sel idx hrank hidx hcs hbox
  cases hg : storeGet (setAsync cs fill st sel v) (encodeChunkKey (coordOf sel cs idx)) with
  | none =>
    rw [hread.1 hg]
    exact (hval.1 (hset ▸ hg)).symm
  | some bytes =>
    rw [hread.2 bytes hg]
    exact hval.2 bytes (hset ▸ hg)

/-- Witness for C1 at a concrete one-dimensional instance. -/
theorem write_read_roundtrip_witness :
    getAsync [2] 0 (setAsync [2] 0 [] [(1, 3)] wArr) [(1, 3)] [1] = wArr [1] :=
  write_read_roundtrip [2] 0 [] [(1, 3)] wArr [1] (by decide) (by decide) (by decide)
    (by decide)

theorem writeChunkToStore_elision (cs : List Nat) (fill : Int) (st : Store) (key : String)
    (w : Arr) (bytes : List Int)
    (h : storeGet (writeChunkToStore cs fill st key w) key = some bytes) :
    (allIndices cs).all (fun p => decodeChunkBytes cs bytes p == fill) = false := by
  rw [writeChunkToStore_get_own] at h
  split_ifs at h with hall
  rw [Option.some_inj] at h
  subst h
  rw [Bool.not_eq_true, List.all_eq_false] at hall
  rw [List.all_eq_false]
  obtain ⟨p, hp, hfp⟩ := hall
  refine ⟨p, hp, ?_⟩
  rw [decode_encode cs w p ((mem_allIndices_iff cs p).mp hp)]
  exact hfp

theorem chunkElisionInv_writeChunk (cs : List Nat) (fill : Int) (v : Arr) (st : Store)
    (t : Triple) (hinv : chunkElisionInv cs fill st) :
    chunkElisionInv cs fill (writeChunk cs fill v st t) := by
  intro co bytes hget
  by_cases hk : encodeChunkKey co = encodeChunkKey t.chunkCoord
  · rw [hk] at hget
    unfold writeChunk at hget
    split_ifs at hget with hts
    · exact writeChunkToStore_elision cs fill st _ _ bytes hget
    · exact writeChunkToStore_elision cs fill st _ _ bytes hget
  · rw [writeChunk_get_other cs fill v st t _ hk] at hget
    exact hinv co bytes hget

theorem chunkElisionInv_foldl (cs : List Nat) (fill : Int) (v : Arr) (ts : List Triple)
    (st : Store) (hinv : chunkElisionInv cs fill st) :
    chunkElisionInv cs fill (ts.foldl (writeChunk cs fill v) st) := by
  induction ts generalizing st with
  | nil => exact hinv
  | cons t ts ih => exact ih _ (chunkElisionInv_writeChunk cs fill v st t hinv)

theorem chunkElisionInv_applyWrites (cs : List Nat) (fill : Int) (ws : List (Sel × Arr))
    (st : Store) (hinv : chunkElisionInv cs fill st) :
    chunkElisionInv cs fill (applyWrites cs fill st ws) := by
  induction ws generalizing st with
  | nil => exact hinv
  | cons w ws ih => exact ih _ (chunkElisionInv_foldl cs fill w.2 _ st hinv)

/-- C2: every chunk write whose post-write content is the fill value in every
cell removes the chunk key instead of writing it, and after any sequence of
writes to a fresh store no stored chunk key decodes to an all-fill chunk
(with the chunk keys and codec modelled from the spec). -/
theorem chunk_elision (cs : List Nat) (fill : Int) :
    (∀ st key w, (allIndices cs).all (fun p => w p == fill) = true →
      storeGet (writeChunkToStore cs fill st key w) key = none) ∧
    ∀ ws co bytes,
      storeGet (applyWrites cs fill [] ws) (encodeChunkKey co) = some bytes →
      (allIndices cs).all (fun p => decodeChunkBytes cs bytes p == fill) = false := by
  constructor
  · intro st key w hall
    rw [writeChunkToStore_get_own, if_pos hall]
  · intro ws co bytes h
    refine chunkElisionInv_applyWrites cs fill ws [] ?_ co bytes h
    intro co2 bytes2 h2
    simp [storeGet] at h2

/-- Witness for C2: an all-zero write deletes the chunk key, and a stored
chunk after a concrete write sequence is not all-fill. -/
theorem chunk_elision_witness :
    storeGet (writeChunkToStore [1] 0 [] (encodeChunkKey [0]) (fun x => (0 : Int)))
        (encodeChunkKey [0]) = none ∧
      (allIndices [1]).all (fun p => decodeChunkBytes [1] [5] p == (0 : Int)) = false :=
  ⟨(chunk_elision [1] 0).1 [] (encodeChunkKey [0]) (fun x => (0 : Int)) (by decide),
   (chunk_elision [1] 0).2 [([(0, 1)], wArr)] [0] [5] (by decide)⟩

theorem storeGet_empty_eq_localGetAsync_fsDirChunk (k : String) :
    storeGet ([] : Store) k = localGetAsync fsDirChunk k := by
  unfold localGetAsync storeGet fsDirChunk
  cases h : List.find? (fun p => p.1 == k) [((⟨['c', '0']⟩ : String), FsEntry.dir)] with
  | none => rfl
  | some e =>
    have hm : e ∈ [((⟨['c', '0']⟩ : String), FsEntry.dir)] := List.mem_of_find?_eq_some h
    simp only [List.mem_singleton] at hm
    rw [hm]
    rfl

/-- C3: an absent chunk is never an error: the local store maps a missing path
or a directory to absent, and a read whose chunk key the store reports absent
yields the fill value at every index of that chunk region. -/
theorem absent_chunk_fill (cs : List Nat) (fill : Int) (sel : Sel) (idx : List Nat)
    (st : Store) (fs : Fs)
    (hrank : cs.length = sel.length) (hidx : idx.length = sel.length)
    (hcs : ∀ i (h : i < cs.length), 0 < cs[i])
    (hbox : ∀ i (h1 : i < idx.length) (h2 : i < sel.length), idx[i] < sel[i].2 - sel[i].1)
    (hst : ∀ k, storeGet st k = localGetAsync fs k)
    (habs : (fs.find? (fun p => p.1 == encodeChunkKey (coordOf sel cs idx))).map Prod.snd
          = none ∨
        (fs.find? (fun p => p.1 == encodeChunkKey (coordOf sel cs idx))).map Prod.snd
          = some FsEntry.dir) :
    getAsync cs fill st sel idx = fill := by
  have hnone : localGetAsync fs (encodeChunkKey (coordOf sel cs idx)) = none := by
    unfold localGetAsync
    rcases habs with h | h <;> rw [h]
  exact (getAsync_eval cs fill st sel idx hrank hidx hcs hbox).1 (by rw [hst]; exact hnone)

/-- Witness for C3: reading through a store whose chunk path is a directory
returns the fill value. -/
theorem absent_chunk_fill_witness :
    getAsync [1] 0 [] [(0, 1)] [0] = 0 :=
  absent_chunk_fill [1] 0 [(0, 1)] [0] [] fsDirChunk (by decide) (by decide) (by decide)
    (by decide) storeGet_empty_eq_localGetAsync_fsDirChunk (by decide)

/-! Resize and chunk garbage collection (C6). -/

theorem lt_ceilDiv_iff (n k c : Nat) (hk : 0 < k) : c < ceilDiv n k ↔ c * k < n := by
  unfold ceilDiv
  rw [Nat.lt_iff_add_one_le, Nat.le_div_iff_mul_le hk]
  have hx : (c + 1) * k = c * k + k := by ring
  rw [hx]
  generalize c * k = t
  omega

theorem mem_allChunkCoords_iff (shape cs co : List Nat) :
    co ∈ allChunkCoords shape cs ↔ co.length = min shape.length cs.length ∧
      ∀ i (h1 : i < co.length) (h2 : i < shape.length) (h3 : i < cs.length),
        co[i] < ceilDiv shape[i] cs[i] := by
  unfold allChunkCoords
  rw [cartProd_mem_iff]
  have hlen : (List.zipWith (fun n k => List.range (ceilDiv n k)) shape cs).length
      = min shape.length cs.length := by rw [List.length_zipWith]
  constructor
  · rintro ⟨hl, h⟩
    rw [hlen] at hl
    refine ⟨hl, fun i h1 h2 h3 => ?_⟩
    have := h i h1 (by rw [hlen]; omega)
    rw [List.getElem_zipWith] at this
    exact List.mem_range.mp this
  · rintro ⟨hl, h⟩
    refine ⟨by rw [hlen]; exact hl, fun i h1 h2 => ?_⟩
    rw [hlen] at h2
    rw [List.getElem_zipWith]
    exact List.mem_range.mpr (h i h1 (by omega) (by omega))

theorem foldl_storeDelete_get (l : List (List Nat)) (st : Store) (k : String) :
    storeGet (l.foldl (fun s c => storeDelete s (encodeChunkKey c)) st) k =
      if ∃ c ∈ l, k = encodeChunkKey c then none else storeGet st k := by
  induction l generalizing st with
  | nil => simp
  | cons c l ih =>
    rw [List.foldl_cons, ih (storeDelete st (encodeChunkKey c))]
    by_cases hex : ∃ c2 ∈ l, k = encodeChunkKey c2
    · rw [if_pos hex, if_pos (by obtain ⟨c2, hc2, hk2⟩ := hex; exact ⟨c2, by simp [hc2], hk2⟩)]
    · rw [if_neg hex]
      by_cases hk : k = encodeChunkKey c
      · rw [if_pos ⟨c, by simp, hk⟩, hk]
        exact storeGet_storeDelete_same st _
      · rw [if_neg (by
          rintro ⟨c2, hc2, hkc⟩
          rcases List.mem_cons.mp hc2 with he | hc2m
          · exact hk (he ▸ hkc)
          · exact hex ⟨c2, hc2m, hkc⟩)]
        exact storeGet_storeDelete_ne st _ k hk

/-- C6: resize with a same-rank shape deletes exactly the chunk keys of the
old grid that fall outside the new grid, rewrites the metadata document with
the new shape, and leaves no chunk key for a chunk fully outside the new
shape (when the store held chunk keys only for old-grid chunks); a rank
mismatch fails before any store change. -/
theorem resize_gc (shape cs newShape : List Nat) (st : Store)
    (hsc : shape.length = cs.length) (hr : newShape.length = shape.length)
    (hcs : ∀ i (h : i < cs.length), 0 < cs[i]) :
    ∃ st', resizeAsync shape cs newShape st = some st' ∧
      storeGet st' zarrJsonKey = some (metaDocBytes newShape) ∧
      (∀ co, co ∈ allChunkCoords shape cs → co ∉ allChunkCoords newShape cs →
        storeGet st' (encodeChunkKey co) = none) ∧
      (∀ co, co.length = cs.length →
        co ∈ allChunkCoords newShape cs ∨ co ∉ allChunkCoords shape cs →
        storeGet st' (encodeChunkKey co) = storeGet st (encodeChunkKey co)) ∧
      ((∀ co2, (storeGet st (encodeChunkKey co2)).isSome = true →
          co2 ∈ allChunkCoords shape cs) →
        ∀ co, co.length = cs.length →
        (∃ i, ∃ (h1 : i < co.length), ∃ (h2 : i < newShape.length), ∃ (h3 : i < cs.length),
          newShape[i] ≤ co[i] * cs[i]) →
        storeGet st' (encodeChunkKey co) = none) ∧
      (∀ ns2 : List Nat, ns2.length ≠ shape.length → resizeAsync shape cs ns2 st = none) := by
  have hdel : ∀ co, co ∈ allChunkCoords shape cs → co ∉ allChunkCoords newShape cs →
      storeGet (storeSet
        (((allChunkCoords shape cs).filter
            (fun c => !((allChunkCoords newShape cs).contains c))).foldl
          (fun s c => storeDelete s (encodeChunkKey c)) st)
        zarrJsonKey (metaDocBytes newShape)) (encodeChunkKey co) = none := by
    intro co hold hnew
    rw [storeGet_storeSet_ne _ _ _ _ (encodeChunkKey_ne_zarrJson co)]
    rw [foldl_storeDelete_get]
    rw [if_pos ⟨co, List.mem_filter.mpr ⟨hold, by simpa using hnew⟩, rfl⟩]
  have hkeep : ∀ co, co.length = cs.length →
      (co ∈ allChunkCoords newShape cs ∨ co ∉ allChunkCoords shape cs) →
      storeGet (storeSet
        (((allChunkCoords shape cs).filter
            (fun c => !((allChunkCoords newShape cs).contains c))).foldl
          (fun s c => storeDelete s (encodeChunkKey c)) st)
        zarrJsonKey (metaDocBytes newShape)) (encodeChunkKey co)
        = storeGet st (encodeChunkKey co) := by
    intro co hlen hcase
    rw [storeGet_storeSet_ne _ _ _ _ (encodeChunkKey_ne_zarrJson co)]
    rw [foldl_storeDelete_get]
    rw [if_neg ?_]
    rintro ⟨c, hcmem, hkey⟩
    obtain ⟨hcold, hcnot⟩ := List.mem_filter.mp hcmem
    have hcl : c.length = cs.length := by
      have := ((mem_allChunkCoords_iff shape cs c).mp hcold).1
      omega
    have hec : co = c := encodeChunkKey_inj co c (by omega) hkey
    subst hec
    rcases hcase with hin | hnotold
    · have hc2 : (allChunkCoords newShape cs).contains co = true := by simpa using hin
      rw [hc2] at hcnot
      simp at hcnot
    · exact hnotold hcold
  refine ⟨_, ?_, storeGet_storeSet_same _ _ _, hdel, hkeep, ?_, ?_⟩
  · unfold resizeAsync
    rw [if_pos hr]
  · intro hkeys co hlen hout
    obtain ⟨i, h1, h2, h3, hge⟩ := hout
    have hnotnew : co ∉ allChunkCoords newShape cs := by
      intro hmem
      have hlt := ((mem_allChunkCoords_iff newShape cs co).mp hmem).2 i h1 h2 h3
      rw [lt_ceilDiv_iff _ _ _ (hcs i h3)] at hlt
      omega
    by_cases hold : co ∈ allChunkCoords shape cs
    · exact hdel co hold hnotnew
    · rw [hkeep co hlen (Or.inr hold)]
      cases hg : storeGet st (encodeChunkKey co) with
      | none => rfl
      | some b => exact absurd (hkeys co (by rw [hg]; rfl)) hold
  · intro ns2 hne
    unfold resizeAsync
    rw [if_neg hne]

/-- Witness for C6 at a concrete one-dimensional resize. -/
theorem resize_gc_witness :
    ∃ st', resizeAsync [6] [2] [3]
          (storeSet (storeSet [] (encodeChunkKey [2]) [9]) (encodeChunkKey [0]) [7])
        = some st' ∧
      storeGet st' zarrJsonKey = some (metaDocBytes [3]) ∧
      (∀ co, co ∈ allChunkCoords [6] [2] → co ∉ allChunkCoords [3] [2] →
        storeGet st' (encodeChunkKey co) = none) ∧
      (∀ co, co.length = ([2] : List Nat).length →
        co ∈ allChunkCoords [3] [2] ∨ co ∉ allChunkCoords [6] [2] →
        storeGet st' (encodeChunkKey co)
          = storeGet (storeSet (storeSet [] (encodeChunkKey [2]) [9]) (encodeChunkKey [0]) [7])
              (encodeChunkKey co)) ∧
      ((∀ co2, (storeGet (storeSet (storeSet [] (encodeChunkKey [2]) [9])
              (encodeChunkKey [0]) [7]) (encodeChunkKey co2)).isSome = true →
          co2 ∈ allChunkCoords [6] [2]) →
        ∀ co, co.length = ([2] : List Nat).length →
        (∃ i, ∃ (h1 : i < co.length), ∃ (h2 : i < ([3] : List Nat).length),
          ∃ (h3 : i < ([2] : List Nat).length),
          ([3] : List Nat)[i] ≤ co[i] * ([2] : List Nat)[i]) →
        storeGet st' (encodeChunkKey co) = none) ∧
      (∀ ns2 : List Nat, ns2.length ≠ ([6] : List Nat).length →
        resizeAsync [6] [2] ns2 (storeSet (storeSet [] (encodeChunkKey [2]) [9])
          (encodeChunkKey [0]) [7]) = none) :=
  resize_gc [6] [2] [3]
    (storeSet (storeSet [] (encodeChunkKey [2]) [9]) (encodeChunkKey [0]) [7])
    (by decide) (by decide) (by decide)

end Zarrita
